import Mathlib

/-!
Verification of the mark-sweep garbage collector of `gcl.c` (a miniature
Lisp-like interpreter with a Schorr-Waite pointer-reversal collector).

The C heap is embedded shallowly:
* heap objects become the structure `Obj` (mark bit, class tag, and the
  payload fields that participate in marking: for a cons `fld1`/`fld2` are
  `head`/`tail` and `tailIsNext` is the traversal cursor; for a function
  `fld1` is `data`);
* the heap list rooted at `heap_head` becomes an association list
  `Heap = List (Addr × Obj)` whose order is the list order;
* the address `0` plays the role of the C null pointer; heap addresses are
  nonzero;
* the Schorr-Waite marker `mark` becomes a two-phase step function
  `markStep` iterated with fuel, mirroring the `start_marking`/`mark_next`
  goto loop of the source;
* the collector driver `gc`, the allocator `register_object`, the root
  stack and the interpreter stack operations become functions on a global
  state `GState`.
-/

namespace GCL

/-- Heap addresses; `0` is the null pointer. -/
abbrev Addr := Nat

/-- The four built-in classes of the interpreter
(`nil_class`, `atom_class`, `cons_class`, `function_class`). -/
inductive ObjClass where
  | nilC
  | atomC
  | consC
  | funC
  deriving DecidableEq, Repr

/-- A heap object: the uniform header (`marked`, `class`) together with the
payload fields that the collector reads and writes.  For a cons,
`tailIsNext` is the `tail_is_next` cursor, `fld1` is `head`, `fld2` is
`tail`.  For a function, `fld1` is `data`.  For nil and atoms the payload
fields are unused by the collector. -/
structure Obj where
  marked : Bool
  cls : ObjClass
  tailIsNext : Bool
  fld1 : Addr
  fld2 : Addr
  deriving DecidableEq, Repr

/-- The heap list rooted at `heap_head`: an association list from addresses
to objects, in heap-list order. -/
abbrev Heap := List (Addr × Obj)

namespace Heap

/-- Dereferencing an address in the heap. -/
def lookup : Heap → Addr → Option Obj
  | [], _ => none
  | q :: t, a => if a = q.1 then some q.2 else lookup t a

/-- In-place mutation of the object stored at an address. -/
def update : Heap → Addr → Obj → Heap
  | [], _, _ => []
  | q :: t, a, o => (if q.1 = a then (q.1, o) else q) :: update t a o

/-- The addresses on the heap list, in order. -/
def keys (h : Heap) : List Addr := h.map Prod.fst

end Heap

/-- The ordered sequence of children that an object's class exposes to the
collector: `(head, tail)` for a cons, `(data)` for a function, empty
otherwise. -/
def childrenOf (o : Obj) : List Addr :=
  match o.cls with
  | .consC => [o.fld1, o.fld2]
  | .funC => [o.fld1]
  | _ => []

/-- Whether the object at address `a` is currently marked. -/
def markedB (h : Heap) (a : Addr) : Bool :=
  match h.lookup a with
  | some o => o.marked
  | none => false

/-- The number of unmarked objects on the heap list (termination measure
ingredient for the marker). -/
def unmarkedCount (h : Heap) : Nat :=
  (h.filter (fun q => !q.2.marked)).length

/-- Well-formedness of a heap: distinct nonzero addresses, and every
class-exposed child of every object is itself on the heap list. -/
def WfHeap (h : Heap) : Prop :=
  h.keys.Nodup ∧
  (∀ q ∈ h, q.1 ≠ 0) ∧
  (∀ q ∈ h, ∀ c ∈ childrenOf q.2, (h.lookup c).isSome)

instance (h : Heap) : Decidable (WfHeap h) := by
  unfold WfHeap; infer_instance

/-- All marked bits are clear (the invariant that holds outside `gc`). -/
def AllUnmarked (h : Heap) : Prop := ∀ q ∈ h, q.2.marked = false

instance (h : Heap) : Decidable (AllUnmarked h) := by
  unfold AllUnmarked; infer_instance

/-- Every marked object has all its children marked (holds of the
intermediate heaps that the collector driver passes to `mark`). -/
def ClosedMarked (h : Heap) : Prop :=
  ∀ q ∈ h, q.2.marked = true → ∀ c ∈ childrenOf q.2, markedB h c = true

instance (h : Heap) : Decidable (ClosedMarked h) := by
  unfold ClosedMarked; infer_instance

/-- Reachability through class-exposed children, following the current
field contents of the heap. -/
inductive Reaches (h : Heap) (r : Addr) : Addr → Prop where
  | refl : Reaches h r r
  | step {b c : Addr} {o : Obj} : Reaches h r b → h.lookup b = some o →
      c ∈ childrenOf o → Reaches h r c

/-! ### Basic lemmas about heap lookup and update -/

theorem lookup_mem {h : Heap} {a : Addr} {o : Obj}
    (hl : h.lookup a = some o) : (a, o) ∈ h := by
  induction h with
  | nil => simp [Heap.lookup] at hl
  | cons q t ih =>
    by_cases hq : a = q.1
    · simp [Heap.lookup, hq] at hl
      subst hq; subst hl; exact List.mem_cons_self _ _
    · simp [Heap.lookup, hq] at hl
      exact List.mem_cons_of_mem _ (ih hl)

theorem lookup_isSome_iff {h : Heap} {a : Addr} :
    (h.lookup a).isSome = true ↔ a ∈ h.keys := by
  induction h with
  | nil => simp [Heap.lookup, Heap.keys]
  | cons q t ih =>
    by_cases hq : a = q.1
    · simp [Heap.lookup, hq, Heap.keys]
    · simp [Heap.lookup, hq, Heap.keys] at *
      exact ih

theorem mem_lookup {h : Heap} (hnd : h.keys.Nodup) {a : Addr} {o : Obj}
    (hm : (a, o) ∈ h) : h.lookup a = some o := by
  induction h with
  | nil => simp at hm
  | cons q t ih =>
    rw [Heap.keys, List.map_cons, List.nodup_cons] at hnd
    rcases List.mem_cons.mp hm with h1 | h1
    · subst h1; simp [Heap.lookup]
    · have hq : a ≠ q.1 := by
        intro he
        exact hnd.1 (he ▸ List.mem_map.mpr ⟨(a, o), h1, rfl⟩)
      simp [Heap.lookup, hq]
      exact ih hnd.2 h1

theorem update_keys (h : Heap) (a : Addr) (o : Obj) :
    (h.update a o).keys = h.keys := by
  induction h with
  | nil => rfl
  | cons q t ih =>
    by_cases hq : q.1 = a <;> simp [Heap.update, Heap.keys, hq] at * <;>
      exact ih

theorem lookup_update_self {h : Heap} {a : Addr} (o : Obj)
    (hs : (h.lookup a).isSome) : (h.update a o).lookup a = some o := by
  induction h with
  | nil => simp [Heap.lookup] at hs
  | cons q t ih =>
    by_cases hq : a = q.1
    · simp [Heap.update, Heap.lookup, hq]
    · have : q.1 ≠ a := fun he => hq he.symm
      simp [Heap.update, Heap.lookup, hq, this] at *
      exact ih hs

theorem lookup_update_other (h : Heap) {a b : Addr} (o : Obj)
    (hab : b ≠ a) : (h.update a o).lookup b = h.lookup b := by
  induction h with
  | nil => rfl
  | cons q t ih =>
    by_cases hq : q.1 = a
    · have hb : b ≠ q.1 := by rw [hq]; exact hab
      simp [Heap.update, Heap.lookup, hq, hb, hab, ih]
    · by_cases hb : b = q.1 <;> simp [Heap.update, Heap.lookup, hq, hb, ih]

theorem update_notin (h : Heap) {a : Addr} (o : Obj)
    (ha : a ∉ h.keys) : h.update a o = h := by
  induction h with
  | nil => rfl
  | cons q t ih =>
    have h1 : q.1 ≠ a := by
      intro he
      exact ha (by rw [Heap.keys, List.map_cons, he]; exact List.mem_cons_self _ _)
    have h2 : a ∉ Heap.keys t := by
      intro hm
      exact ha (by rw [Heap.keys, List.map_cons]; exact List.mem_cons_of_mem _ hm)
    simp [Heap.update, h1, ih h2]

theorem lookup_update_none {h : Heap} {a b : Addr} (o : Obj)
    (hn : h.lookup b = none) : (h.update a o).lookup b = none := by
  by_cases hb : b = a
  · subst hb
    have : b ∉ h.keys := by
      intro hm
      have := lookup_isSome_iff.mpr hm
      simp [hn] at this
    rw [update_notin h o this]; exact hn
  · rw [lookup_update_other h o hb]; exact hn

/-! ### The class marking callbacks

Each C callback takes `struct object **object, **parent`, mutates the
object it addresses in place, and returns a bool.  Here a callback takes
the looked-up object together with the current `obj`/`parent` register
values and returns the updated object plus the new register values; the
caller (`markStep`) stores the updated object back into the heap. -/

/-- Result of a marking callback: returned bool, updated in-place object,
and the new `obj` and `parent` register values. -/
structure CbRes where
  res : Bool
  upd : Obj
  obj : Addr
  parent : Addr
  deriving DecidableEq, Repr

/-- `nil_start_marking`: no children, returns false, changes nothing. -/
def nil_start_marking (O : Obj) (o p : Addr) : CbRes :=
  { res := false, upd := O, obj := o, parent := p }

/-- `atom_start_marking`: no children, returns false, changes nothing. -/
def atom_start_marking (O : Obj) (o p : Addr) : CbRes :=
  { res := false, upd := O, obj := o, parent := p }

/-- `cons_start_marking`: descend into the head; the head slot is
overwritten with the incoming parent and `tail_is_next` is set. -/
def cons_start_marking (O : Obj) (o p : Addr) : CbRes :=
  { res := true
    upd := { O with fld1 := p, tailIsNext := true }
    obj := O.fld1
    parent := o }

/-- `function_start_marking`: descend into the data field; the data slot is
overwritten with the incoming parent. -/
def function_start_marking (O : Obj) (o p : Addr) : CbRes :=
  { res := true, upd := { O with fld1 := p }, obj := O.fld1, parent := o }

/-- `cons_mark_next`: if the cursor is at the head (`tail_is_next`),
restore the head from `obj`, move the grandparent into the tail slot and
descend into the tail; otherwise restore the tail and pop to the
grandparent. -/
def cons_mark_next (P : Obj) (o p : Addr) : CbRes :=
  if P.tailIsNext then
    { res := true
      upd := { P with fld1 := o, fld2 := P.fld1, tailIsNext := false }
      obj := P.fld2
      parent := p }
  else
    { res := false, upd := { P with fld2 := o }, obj := p, parent := P.fld2 }

/-- `function_mark_next`: single child, so restore the data field from
`obj` and pop to the grandparent. -/
def function_mark_next (P : Obj) (o p : Addr) : CbRes :=
  { res := false, upd := { P with fld1 := o }, obj := p, parent := P.fld1 }

/-- Class dispatch of `start_marking` (total: every class implements it). -/
def startMarkingOf : ObjClass → Obj → Addr → Addr → CbRes
  | .nilC => nil_start_marking
  | .atomC => atom_start_marking
  | .consC => cons_start_marking
  | .funC => function_start_marking

/-- Class dispatch of `mark_next`. `nil_mark_next` and `atom_mark_next`
execute `assert(false)` and abort the process, modelled as `none`. -/
def markNextOf : ObjClass → Obj → Addr → Addr → Option CbRes
  | .nilC, _, _, _ => none
  | .atomC, _, _, _ => none
  | .consC, P, o, p => some (cons_mark_next P o p)
  | .funC, P, o, p => some (function_mark_next P o p)

/-! ### The Schorr-Waite marker -/

/-- The two control states of `mark`: the `start_marking` label and the
`mark_next` label of the source. -/
inductive Phase where
  | start
  | advance
  deriving DecidableEq, Repr

/-- The registers of `mark`: the `object` and `parent` local variables
plus the heap being traversed. -/
structure MarkState where
  obj : Addr
  parent : Addr
  heap : Heap
  deriving DecidableEq, Repr

/-- One step of `mark` either continues at some label, returns, or aborts
(`fail` models `assert(false)` and wild dereferences, which the heap
invariant rules out). -/
inductive StepRes where
  | cont (ph : Phase) (s : MarkState)
  | done (s : MarkState)
  | fail
  deriving DecidableEq, Repr

/-- One iteration of the `mark` state machine.  At `start`, a marked
object short-circuits to `advance`; otherwise the object is marked and its
class's `start_marking` runs.  At `advance`, a null parent terminates;
otherwise the parent's class's `mark_next` runs. -/
def markStep (ph : Phase) (s : MarkState) : StepRes :=
  match ph with
  | .start =>
    match s.heap.lookup s.obj with
    | none => .fail
    | some O =>
      if O.marked then .cont .advance s
      else
        let r := startMarkingOf O.cls { O with marked := true } s.obj s.parent
        .cont (if r.res then .start else .advance)
          { obj := r.obj, parent := r.parent, heap := s.heap.update s.obj r.upd }
  | .advance =>
    if s.parent = 0 then .done s
    else
      match s.heap.lookup s.parent with
      | none => .fail
      | some P =>
        match markNextOf P.cls P s.obj s.parent with
        | none => .fail
        | some r =>
          .cont (if r.res then .start else .advance)
            { obj := r.obj, parent := r.parent, heap := s.heap.update s.parent r.upd }

/-- Iterate `markStep` with fuel. -/
def markRun : Nat → Phase → MarkState → Option MarkState
  | 0, _, _ => none
  | n + 1, ph, s =>
    match markStep ph s with
    | .fail => none
    | .done s' => some s'
    | .cont ph' s' => markRun n ph' s'

/-- Fuel that always suffices for a well-formed heap (proved below). -/
def markFuel (h : Heap) : Nat := h.length * (4 * h.length + 2) + 2

/-- `mark(object)`: run the state machine from `START(object, null)`;
`none` models a run that aborts (impossible under the heap invariant). -/
def mark (h : Heap) (root : Addr) : Option Heap :=
  (markRun (markFuel h) .start { obj := root, parent := 0, heap := h }).map
    MarkState.heap

/-! ### Lemmas about marked bits and the unmarked count -/

theorem markedB_some {h : Heap} {a : Addr} {O : Obj}
    (hl : h.lookup a = some O) : markedB h a = O.marked := by
  simp [markedB, hl]

theorem markedB_update_self {h : Heap} {a : Addr} (O' : Obj)
    (hs : (h.lookup a).isSome) : markedB (h.update a O') a = O'.marked := by
  simp [markedB, lookup_update_self O' hs]

theorem markedB_update_other {h : Heap} {a b : Addr} (O' : Obj)
    (hab : b ≠ a) : markedB (h.update a O') b = markedB h b := by
  simp [markedB, lookup_update_other h O' hab]

theorem markedB_update_congr {h : Heap} {a : Addr} {O O' : Obj}
    (hl : h.lookup a = some O) (hm : O'.marked = O.marked) (b : Addr) :
    markedB (h.update a O') b = markedB h b := by
  by_cases hb : b = a
  · subst hb
    rw [markedB_update_self O' (by simp [hl]), markedB_some hl, hm]
  · exact markedB_update_other O' hb

theorem markedB_update_ge {h : Heap} {a b : Addr} {O O' : Obj}
    (hl : h.lookup a = some O) (hm' : O'.marked = true)
    (hb : markedB h b = true) : markedB (h.update a O') b = true := by
  by_cases hba : b = a
  · subst hba; rw [markedB_update_self O' (by simp [hl])]; exact hm'
  · rw [markedB_update_other O' hba]; exact hb

theorem unmarkedCount_cons (q : Addr × Obj) (t : Heap) :
    unmarkedCount (q :: t) = (if q.2.marked then 0 else 1) + unmarkedCount t := by
  cases hm : q.2.marked <;> simp [unmarkedCount, List.filter_cons, hm] <;> omega

theorem unmarkedCount_update_mark {h : Heap} {a : Addr} {O O' : Obj}
    (hnd : h.keys.Nodup) (hl : h.lookup a = some O) (hm : O.marked = false)
    (hm' : O'.marked = true) :
    unmarkedCount (h.update a O') + 1 = unmarkedCount h := by
  induction h with
  | nil => simp [Heap.lookup] at hl
  | cons q t ih =>
    rw [Heap.keys, List.map_cons, List.nodup_cons] at hnd
    by_cases hq : a = q.1
    · have hqO : q.2 = O := by
        rw [Heap.lookup, if_pos hq] at hl
        exact Option.some.inj hl
      have ht : Heap.update t a O' = t :=
        update_notin t O' (fun hmem => hnd.1 (hq ▸ hmem))
      rw [Heap.update, if_pos hq.symm, ht, unmarkedCount_cons, unmarkedCount_cons]
      simp [hm', hqO, hm]
      omega
    · have hl' : Heap.lookup t a = some O := by
        rw [Heap.lookup, if_neg hq] at hl; exact hl
      have hne : ¬ q.1 = a := fun he => hq he.symm
      rw [Heap.update, if_neg hne, unmarkedCount_cons, unmarkedCount_cons]
      have := ih hnd.2 hl'
      omega

theorem unmarkedCount_update_congr {h : Heap} {a : Addr} {O O' : Obj}
    (hnd : h.keys.Nodup) (hl : h.lookup a = some O) (hm : O'.marked = O.marked) :
    unmarkedCount (h.update a O') = unmarkedCount h := by
  induction h with
  | nil => simp [Heap.lookup] at hl
  | cons q t ih =>
    rw [Heap.keys, List.map_cons, List.nodup_cons] at hnd
    by_cases hq : a = q.1
    · have hqO : q.2 = O := by
        rw [Heap.lookup, if_pos hq] at hl
        exact Option.some.inj hl
      have ht : Heap.update t a O' = t :=
        update_notin t O' (fun hmem => hnd.1 (hq ▸ hmem))
      rw [Heap.update, if_pos hq.symm, ht, unmarkedCount_cons, unmarkedCount_cons]
      rw [hm, hqO]
    · have hl' : Heap.lookup t a = some O := by
        rw [Heap.lookup, if_neg hq] at hl; exact hl
      have hne : ¬ q.1 = a := fun he => hq he.symm
      rw [Heap.update, if_neg hne, unmarkedCount_cons, unmarkedCount_cons]
      rw [ih hnd.2 hl']

theorem unmarkedCount_pos {h : Heap} {a : Addr} {O : Obj}
    (hl : h.lookup a = some O) (hm : O.marked = false) :
    1 ≤ unmarkedCount h := by
  have hmem : (a, O) ∈ h.filter (fun q => !q.2.marked) :=
    List.mem_filter.mpr ⟨lookup_mem hl, by simp [hm]⟩
  have := List.ne_nil_of_mem hmem
  have := List.length_pos.mpr this
  exact this

theorem lookup_length_pos {h : Heap} {a : Addr} {O : Obj}
    (hl : h.lookup a = some O) : 1 ≤ h.length := by
  have := lookup_mem hl
  have := List.ne_nil_of_mem this
  have := List.length_pos.mpr this
  exact this

theorem markRun_mono : ∀ {n m : Nat} {ph : Phase} {s r : MarkState},
    n ≤ m → markRun n ph s = some r → markRun m ph s = some r := by
  intro n
  induction n with
  | zero => intro m ph s r _ hr; simp [markRun] at hr
  | succ k ih =>
    intro m ph s r hnm hr
    match m, hnm with
    | m' + 1, hnm =>
      rw [markRun] at hr ⊢
      cases hstep : markStep ph s with
      | fail => rw [hstep] at hr; exact hr
      | done s' => rw [hstep] at hr; exact hr
      | cont ph' s' =>
        rw [hstep] at hr
        exact ih (Nat.le_of_succ_le_succ hnm) hr

/-! ### The ghost traversal stack of the marker

Mirrors the `mark_stack` predicate of the VeriFast annotations: the chain
of pointer-reversed parents from the current `parent` register back to the
root, together with each busy object's cursor position. -/

/-- A busy object on the reversed-parent chain and its cursor index. -/
structure Frame where
  addr : Addr
  idx : Nat
  deriving DecidableEq, Repr

/-- The addresses of the busy objects, innermost first. -/
def frameAddrs (fr : List Frame) : List Addr := fr.map Frame.addr

/-- `O` is `O₀` with its marking cursor at child `i` and the grandparent
`gp` parked in child slot `i` (the Schorr-Waite pointer reversal); slots
before the cursor are already restored, slots after it untouched. -/
def rotatedAt (O₀ O : Obj) (i : Nat) (gp : Addr) : Prop :=
  O.cls = O₀.cls ∧
  ((O₀.cls = .consC ∧ i = 0 ∧ O.tailIsNext = true ∧
      O.fld1 = gp ∧ O.fld2 = O₀.fld2) ∨
   (O₀.cls = .consC ∧ i = 1 ∧ O.tailIsNext = false ∧
      O.fld1 = O₀.fld1 ∧ O.fld2 = gp) ∨
   (O₀.cls = .funC ∧ i = 0 ∧ O.fld1 = gp ∧ O.fld2 = O₀.fld2))

/-- The reversed-parent chain: starting from registers `parent = p`,
`obj = o`, frame `f` after frame `f` reconstructs the DFS stack down to the
original root (`h₀` holds the pristine objects, `h` the current ones). -/
def ChainInv (h₀ h : Heap) (root : Addr) : Addr → Addr → List Frame → Prop
  | p, o, [] => p = 0 ∧ o = root
  | p, o, f :: fs =>
    p = f.addr ∧ p ≠ 0 ∧
    ∃ O₀ O gp, h₀.lookup p = some O₀ ∧ h.lookup p = some O ∧
      O.marked = true ∧
      (childrenOf O₀).get? f.idx = some o ∧
      rotatedAt O₀ O f.idx gp ∧
      ChainInv h₀ h root gp p fs

theorem chain_update_notin {h₀ h : Heap} {root : Addr} {a : Addr} (O' : Obj)
    {fr : List Frame} (ha : a ∉ frameAddrs fr) :
    ∀ {p o : Addr}, ChainInv h₀ h root p o fr →
      ChainInv h₀ (h.update a O') root p o fr := by
  induction fr with
  | nil => intro p o hc; exact hc
  | cons f fs ih =>
    intro p o hc
    obtain ⟨hp, hnz, O₀, O, gp, hl₀, hl, hm, hget, hrot, hrest⟩ := hc
    have hfa : a ∉ frameAddrs fs := fun hmem =>
      ha (List.mem_cons_of_mem _ hmem)
    have hpa : p ≠ a := by
      intro he
      exact ha (by rw [frameAddrs, List.map_cons, ← hp, he]; exact List.mem_cons_self _ _)
    exact ⟨hp, hnz, O₀, O, gp, hl₀, by rw [lookup_update_other h O' hpa]; exact hl,
      hm, hget, hrot, ih hfa hrest⟩

theorem chain_reaches {h₀ h : Heap} {root : Addr} :
    ∀ {fr : List Frame} {p o : Addr}, ChainInv h₀ h root p o fr →
      Reaches h₀ root o := by
  intro fr
  induction fr with
  | nil => intro p o hc; rw [hc.2]; exact Reaches.refl
  | cons f fs ih =>
    intro p o hc
    obtain ⟨hp, hnz, O₀, O, gp, hl₀, hl, hm, hget, hrot, hrest⟩ := hc
    exact Reaches.step (ih hrest) hl₀ (List.get?_mem hget)

theorem chain_reaches_parent {h₀ h : Heap} {root : Addr} {fr : List Frame}
    {p o : Addr} (hc : ChainInv h₀ h root p o fr) (hnz : p ≠ 0) :
    Reaches h₀ root p := by
  cases fr with
  | nil => exact absurd hc.1 hnz
  | cons f fs =>
    obtain ⟨hp, _, O₀, O, gp, hl₀, hl, hm, hget, hrot, hrest⟩ := hc
    exact chain_reaches hrest

theorem chain_frames_marked {h₀ h : Heap} {root : Addr} :
    ∀ {fr : List Frame} {p o : Addr}, ChainInv h₀ h root p o fr →
      ∀ f ∈ fr, markedB h f.addr = true := by
  intro fr
  induction fr with
  | nil => intro p o _ f hf; exact absurd hf (List.not_mem_nil f)
  | cons g gs ih =>
    intro p o hc f hf
    obtain ⟨hp, hnz, O₀, O, gp, hl₀, hl, hm, hget, hrot, hrest⟩ := hc
    rcases List.mem_cons.mp hf with hfg | hfg
    · subst hfg; rw [← hp, markedB_some hl]; exact hm
    · exact ih hrest f hfg

/-! ### Termination measure of the marker -/

/-- Number of children a class exposes. -/
def clsArity : ObjClass → Nat
  | .consC => 2
  | .funC => 1
  | _ => 0

/-- Number of children of the pristine object at `a`. -/
def arityAt (h₀ : Heap) (a : Addr) : Nat :=
  match h₀.lookup a with
  | some O => clsArity O.cls
  | none => 0

/-- Remaining marking work on the busy chain. -/
def frWeight (h₀ : Heap) (fr : List Frame) : Nat :=
  (fr.map (fun f => arityAt h₀ f.addr - f.idx)).sum

def phaseRank : Phase → Nat
  | .start => 1
  | .advance => 0

/-- Lexicographic-style termination measure of the `mark` state machine. -/
def muM (h₀ : Heap) (ph : Phase) (s : MarkState) (fr : List Frame) : Nat :=
  unmarkedCount s.heap * (4 * h₀.length + 2) + 2 * frWeight h₀ fr + phaseRank ph

/-! ### The marker invariant -/

/-- The master invariant of the `mark` state machine, the shallow analogue
of the `heap_marking` + `mark_stack` loop invariant of the source.  `h₀`
is the heap at entry to `mark`, `root` the argument. -/
structure MI (h₀ : Heap) (root : Addr) (ph : Phase) (s : MarkState)
    (fr : List Frame) : Prop where
  keys : s.heap.keys = h₀.keys
  simCls : ∀ a O₀, h₀.lookup a = some O₀ →
    ∃ O, s.heap.lookup a = some O ∧ O.cls = O₀.cls
  simFld : ∀ a O₀ O, h₀.lookup a = some O₀ → s.heap.lookup a = some O →
    a ∉ frameAddrs fr → O.fld1 = O₀.fld1 ∧ O.fld2 = O₀.fld2
  chain : ChainInv h₀ s.heap root s.parent s.obj fr
  frNodup : (frameAddrs fr).Nodup
  soundM : ∀ a, markedB s.heap a = true → markedB h₀ a = true ∨ Reaches h₀ root a
  monoM : ∀ a, markedB h₀ a = true → markedB s.heap a = true
  closedNB : ∀ a O₀, h₀.lookup a = some O₀ → markedB s.heap a = true →
    a ∉ frameAddrs fr → ∀ c ∈ childrenOf O₀, markedB s.heap c = true
  takeClosed : ∀ f ∈ fr, ∀ O₀, h₀.lookup f.addr = some O₀ →
    ∀ c ∈ (childrenOf O₀).take f.idx, markedB s.heap c = true
  phStart : ph = .start → (h₀.lookup s.obj).isSome = true
  phAdv : ph = .advance → markedB s.heap s.obj = true

theorem some_some {α : Type} {x : Option α} {a b : α}
    (h1 : x = some a) (h2 : x = some b) : a = b := by
  rw [h1] at h2; exact Option.some.inj h2

theorem succ_mul_expand (x k : Nat) : (x + 1) * k = x * k + k := by ring

/-- Invariant preservation for one step taken at the `start` label. -/
theorem mi_step_start {h₀ : Heap} {root : Addr} (hwf : WfHeap h₀)
    {s : MarkState} {fr : List Frame} (hmi : MI h₀ root .start s fr) :
    ∃ ph' s' fr', markStep .start s = .cont ph' s' ∧ MI h₀ root ph' s' fr' ∧
      muM h₀ ph' s' fr' < muM h₀ .start s fr := by
  have hndk : s.heap.keys.Nodup := by rw [hmi.keys]; exact hwf.1
  have hs₀ : (h₀.lookup s.obj).isSome = true := hmi.phStart rfl
  obtain ⟨O₀, hl₀⟩ : ∃ O₀, h₀.lookup s.obj = some O₀ := by
    cases hx : h₀.lookup s.obj with
    | none => rw [hx] at hs₀; simp at hs₀
    | some A => exact ⟨A, rfl⟩
  obtain ⟨O, hl, hcls⟩ := hmi.simCls s.obj O₀ hl₀
  cases hm : O.marked with
  | true =>
    refine ⟨.advance, s, fr, by simp [markStep, hl, hm], ?_, ?_⟩
    · exact
        { keys := hmi.keys, simCls := hmi.simCls, simFld := hmi.simFld
          chain := hmi.chain, frNodup := hmi.frNodup, soundM := hmi.soundM
          monoM := hmi.monoM, closedNB := hmi.closedNB
          takeClosed := hmi.takeClosed
          phStart := fun h => nomatch h
          phAdv := fun _ => by rw [markedB_some hl]; exact hm }
    · simp only [muM, phaseRank]; omega
  | false =>
    have hnotfr : s.obj ∉ frameAddrs fr := by
      intro hmem
      obtain ⟨f, hf, hfa⟩ := List.mem_map.mp hmem
      have hfm := chain_frames_marked hmi.chain f hf
      rw [hfa, markedB_some hl, hm] at hfm
      exact Bool.false_ne_true hfm
    have hreach : Reaches h₀ root s.obj := chain_reaches hmi.chain
    have hmem₀ : (s.obj, O₀) ∈ h₀ := lookup_mem hl₀
    have hKpos : 1 ≤ h₀.length := lookup_length_pos hl₀
    have hnz : s.obj ≠ 0 := hwf.2.1 (s.obj, O₀) hmem₀
    have hfl := hmi.simFld s.obj O₀ O hl₀ hl hnotfr
    -- MI reconstruction shared by the two childless classes
    have mkLeaf : childrenOf O₀ = [] →
        MI h₀ root .advance ⟨s.obj, s.parent,
          s.heap.update s.obj { O with marked := true }⟩ fr := by
      intro hchild
      refine ⟨?_, ?_, ?_, ?_, ?_, ?_, ?_, ?_, ?_, ?_, ?_⟩
      · rw [update_keys]; exact hmi.keys
      · intro a A₀ ha
        by_cases hab : a = s.obj
        · subst hab
          have hA : A₀ = O₀ := some_some ha hl₀
          exact ⟨_, lookup_update_self _ (by simp [hl]), by simp [hA, hcls]⟩
        · obtain ⟨B, hB, hBc⟩ := hmi.simCls a A₀ ha
          exact ⟨B, by rw [lookup_update_other _ _ hab]; exact hB, hBc⟩
      · intro a A₀ A ha hA hnfr
        by_cases hab : a = s.obj
        · subst hab
          rw [lookup_update_self _ (by simp [hl])] at hA
          have hAeq : A = { O with marked := true } := (Option.some.inj hA).symm
          have hA0 : A₀ = O₀ := some_some ha hl₀
          subst hAeq; subst hA0
          simpa using hfl
        · rw [lookup_update_other _ _ hab] at hA
          exact hmi.simFld a A₀ A ha hA hnfr
      · exact chain_update_notin _ hnotfr hmi.chain
      · exact hmi.frNodup
      · intro a hma
        by_cases hab : a = s.obj
        · subst hab; right; exact hreach
        · rw [markedB_update_other _ hab] at hma; exact hmi.soundM a hma
      · intro a hma; exact markedB_update_ge hl rfl (hmi.monoM a hma)
      · intro a A₀ ha hma hnfr c hc
        by_cases hab : a = s.obj
        · subst hab
          have hA0 : A₀ = O₀ := some_some ha hl₀
          rw [hA0, hchild] at hc
          exact absurd hc (List.not_mem_nil c)
        · rw [markedB_update_other _ hab] at hma
          exact markedB_update_ge hl rfl (hmi.closedNB a A₀ ha hma hnfr c hc)
      · intro f hf A₀ ha c hc
        exact markedB_update_ge hl rfl (hmi.takeClosed f hf A₀ ha c hc)
      · exact fun h => nomatch h
      · intro _; rw [markedB_update_self _ (by simp [hl])]
    have hmuLeaf :
        muM h₀ .advance ⟨s.obj, s.parent,
          s.heap.update s.obj { O with marked := true }⟩ fr <
        muM h₀ .start s fr := by
      have hU := @unmarkedCount_update_mark s.heap s.obj O
        { O with marked := true } hndk hl hm rfl
      have hU2 : unmarkedCount (s.heap.update s.obj { O with marked := true }) *
            (4 * h₀.length + 2) + (4 * h₀.length + 2) =
          unmarkedCount s.heap * (4 * h₀.length + 2) := by
        rw [← hU]; ring
      simp only [muM, phaseRank]
      omega
    cases hcase : O.cls with
    | nilC =>
      have hchild : childrenOf O₀ = [] := by
        simp [childrenOf, hcls.symm.trans hcase]
      exact ⟨.advance, _, fr,
        by simp [markStep, hl, hm, hcase, startMarkingOf, nil_start_marking],
        mkLeaf hchild, hmuLeaf⟩
    | atomC =>
      have hchild : childrenOf O₀ = [] := by
        simp [childrenOf, hcls.symm.trans hcase]
      exact ⟨.advance, _, fr,
        by simp [markStep, hl, hm, hcase, startMarkingOf, atom_start_marking],
        mkLeaf hchild, hmuLeaf⟩
    | consC =>
      have hO₀c : O₀.cls = .consC := hcls.symm.trans hcase
      have hchild : childrenOf O₀ = [O₀.fld1, O₀.fld2] := by
        simp [childrenOf, hO₀c]
      refine ⟨.start,
        ⟨O.fld1, s.obj, s.heap.update s.obj
          { O with marked := true, fld1 := s.parent, tailIsNext := true }⟩,
        ⟨s.obj, 0⟩ :: fr,
        by simp [markStep, hl, hm, hcase, startMarkingOf, cons_start_marking],
        ?_, ?_⟩
      · refine ⟨?_, ?_, ?_, ?_, ?_, ?_, ?_, ?_, ?_, ?_, ?_⟩
        · rw [update_keys]; exact hmi.keys
        · intro a A₀ ha
          by_cases hab : a = s.obj
          · subst hab
            have hA : A₀ = O₀ := some_some ha hl₀
            exact ⟨_, lookup_update_self _ (by simp [hl]), by simp [hA, hcls]⟩
          · obtain ⟨B, hB, hBc⟩ := hmi.simCls a A₀ ha
            exact ⟨B, by rw [lookup_update_other _ _ hab]; exact hB, hBc⟩
        · intro a A₀ A ha hA hnfr
          rw [frameAddrs, List.map_cons, List.mem_cons] at hnfr
          push_neg at hnfr
          rw [lookup_update_other _ _ hnfr.1] at hA
          exact hmi.simFld a A₀ A ha hA hnfr.2
        · refine ⟨rfl, hnz, O₀, _, s.parent, hl₀,
            lookup_update_self _ (by simp [hl]), rfl, ?_, ⟨by simp [hcls], ?_⟩, ?_⟩
          · simp [hchild, hfl.1]
          · exact Or.inl ⟨hO₀c, rfl, rfl, rfl, by simpa using hfl.2⟩
          · exact chain_update_notin _ hnotfr hmi.chain
        · rw [frameAddrs, List.map_cons, List.nodup_cons]
          exact ⟨hnotfr, hmi.frNodup⟩
        · intro a hma
          by_cases hab : a = s.obj
          · subst hab; right; exact hreach
          · rw [markedB_update_other _ hab] at hma; exact hmi.soundM a hma
        · intro a hma; exact markedB_update_ge hl rfl (hmi.monoM a hma)
        · intro a A₀ ha hma hnfr c hc
          rw [frameAddrs, List.map_cons, List.mem_cons] at hnfr
          push_neg at hnfr
          rw [markedB_update_other _ hnfr.1] at hma
          exact markedB_update_ge hl rfl (hmi.closedNB a A₀ ha hma hnfr.2 c hc)
        · intro f hf A₀ ha c hc
          rcases List.mem_cons.mp hf with hfe | hfe
          · subst hfe; simp at hc
          · exact markedB_update_ge hl rfl (hmi.takeClosed f hfe A₀ ha c hc)
        · intro _
          have : O₀.fld1 ∈ childrenOf O₀ := by simp [hchild]
          have := hwf.2.2 (s.obj, O₀) hmem₀ O₀.fld1 this
          rw [hfl.1]; exact this
        · exact fun h => nomatch h
      · have hU := @unmarkedCount_update_mark s.heap s.obj O
          { O with marked := true, fld1 := s.parent, tailIsNext := true }
          hndk hl hm rfl
        have hU2 : unmarkedCount (s.heap.update s.obj
              { O with marked := true, fld1 := s.parent, tailIsNext := true }) *
              (4 * h₀.length + 2) + (4 * h₀.length + 2) =
            unmarkedCount s.heap * (4 * h₀.length + 2) := by
          rw [← hU]; ring
        have har : arityAt h₀ s.obj = 2 := by
          simp [arityAt, hl₀, hO₀c, clsArity]
        have hW : frWeight h₀ (⟨s.obj, 0⟩ :: fr) = 2 + frWeight h₀ fr := by
          simp [frWeight, har]
        simp only [muM, phaseRank]
        rw [hW]
        omega
    | funC =>
      have hO₀c : O₀.cls = .funC := hcls.symm.trans hcase
      have hchild : childrenOf O₀ = [O₀.fld1] := by
        simp [childrenOf, hO₀c]
      refine ⟨.start,
        ⟨O.fld1, s.obj, s.heap.update s.obj
          { O with marked := true, fld1 := s.parent }⟩,
        ⟨s.obj, 0⟩ :: fr,
        by simp [markStep, hl, hm, hcase, startMarkingOf, function_start_marking],
        ?_, ?_⟩
      · refine ⟨?_, ?_, ?_, ?_, ?_, ?_, ?_, ?_, ?_, ?_, ?_⟩
        · rw [update_keys]; exact hmi.keys
        · intro a A₀ ha
          by_cases hab : a = s.obj
          · subst hab
            have hA : A₀ = O₀ := some_some ha hl₀
            exact ⟨_, lookup_update_self _ (by simp [hl]), by simp [hA, hcls]⟩
          · obtain ⟨B, hB, hBc⟩ := hmi.simCls a A₀ ha
            exact ⟨B, by rw [lookup_update_other _ _ hab]; exact hB, hBc⟩
        · intro a A₀ A ha hA hnfr
          rw [frameAddrs, List.map_cons, List.mem_cons] at hnfr
          push_neg at hnfr
          rw [lookup_update_other _ _ hnfr.1] at hA
          exact hmi.simFld a A₀ A ha hA hnfr.2
        · refine ⟨rfl, hnz, O₀, _, s.parent, hl₀,
            lookup_update_self _ (by simp [hl]), rfl, ?_, ⟨by simp [hcls], ?_⟩, ?_⟩
          · simp [hchild, hfl.1]
          · exact Or.inr (Or.inr ⟨hO₀c, rfl, rfl, by simpa using hfl.2⟩)
          · exact chain_update_notin _ hnotfr hmi.chain
        · rw [frameAddrs, List.map_cons, List.nodup_cons]
          exact ⟨hnotfr, hmi.frNodup⟩
        · intro a hma
          by_cases hab : a = s.obj
          · subst hab; right; exact hreach
          · rw [markedB_update_other _ hab] at hma; exact hmi.soundM a hma
        · intro a hma; exact markedB_update_ge hl rfl (hmi.monoM a hma)
        · intro a A₀ ha hma hnfr c hc
          rw [frameAddrs, List.map_cons, List.mem_cons] at hnfr
          push_neg at hnfr
          rw [markedB_update_other _ hnfr.1] at hma
          exact markedB_update_ge hl rfl (hmi.closedNB a A₀ ha hma hnfr.2 c hc)
        · intro f hf A₀ ha c hc
          rcases List.mem_cons.mp hf with hfe | hfe
          · subst hfe; simp at hc
          · exact markedB_update_ge hl rfl (hmi.takeClosed f hfe A₀ ha c hc)
        · intro _
          have : O₀.fld1 ∈ childrenOf O₀ := by simp [hchild]
          have := hwf.2.2 (s.obj, O₀) hmem₀ O₀.fld1 this
          rw [hfl.1]; exact this
        · exact fun h => nomatch h
      · have hU := @unmarkedCount_update_mark s.heap s.obj O
          { O with marked := true, fld1 := s.parent }
          hndk hl hm rfl
        have hU2 : unmarkedCount (s.heap.update s.obj
              { O with marked := true, fld1 := s.parent }) *
              (4 * h₀.length + 2) + (4 * h₀.length + 2) =
            unmarkedCount s.heap * (4 * h₀.length + 2) := by
          rw [← hU]; ring
        have har : arityAt h₀ s.obj = 1 := by
          simp [arityAt, hl₀, hO₀c, clsArity]
        have hW : frWeight h₀ (⟨s.obj, 0⟩ :: fr) = 1 + frWeight h₀ fr := by
          simp [frWeight, har]
        simp only [muM, phaseRank]
        rw [hW]
        omega

/-- Invariant preservation for one step taken at the `mark_next` label. -/
theorem mi_step_advance {h₀ : Heap} {root : Addr} (hwf : WfHeap h₀)
    {s : MarkState} {fr : List Frame} (hmi : MI h₀ root .advance s fr) :
    (markStep .advance s = .done s ∧ s.parent = 0 ∧ fr = []) ∨
    (∃ ph' s' fr', markStep .advance s = .cont ph' s' ∧ MI h₀ root ph' s' fr' ∧
      muM h₀ ph' s' fr' < muM h₀ .advance s fr) := by
  have hndk : s.heap.keys.Nodup := by rw [hmi.keys]; exact hwf.1
  by_cases hp : s.parent = 0
  · left
    refine ⟨by simp [markStep, hp], hp, ?_⟩
    cases hfr : fr with
    | nil => rfl
    | cons f fs =>
      exfalso
      have hc := hmi.chain
      rw [hfr] at hc
      exact hc.2.1 hp
  · right
    obtain ⟨f, fs, hfr⟩ : ∃ f fs, fr = f :: fs := by
      cases hfr : fr with
      | nil =>
        exfalso
        have hc := hmi.chain
        rw [hfr] at hc
        exact hp hc.1
      | cons f fs => exact ⟨f, fs, rfl⟩
    subst hfr
    obtain ⟨hpf, _, O₀, O, gp, hl₀, hl, hOm, hget, hrotc, hrest⟩ := hmi.chain
    obtain ⟨hclsO, hdisj⟩ := hrotc
    have hmem₀ : (s.parent, O₀) ∈ h₀ := lookup_mem hl₀
    have hKpos : 1 ≤ h₀.length := lookup_length_pos hl₀
    have haddr : frameAddrs (f :: fs) = s.parent :: frameAddrs fs := by
      rw [frameAddrs, List.map_cons, ← hpf]; rfl
    have hnd' : s.parent ∉ frameAddrs fs := by
      have h := hmi.frNodup
      rw [haddr, List.nodup_cons] at h
      exact h.1
    have hndfs : (frameAddrs fs).Nodup := by
      have h := hmi.frNodup
      rw [haddr, List.nodup_cons] at h
      exact h.2
    have hnotfrold : ∀ a : Addr, a ≠ s.parent → a ∉ frameAddrs fs →
        a ∉ frameAddrs (f :: fs) := by
      intro a h1 h2
      rw [haddr]
      intro hx
      rcases List.mem_cons.mp hx with hx | hx
      · exact h1 hx
      · exact h2 hx
    have hmadv : markedB s.heap s.obj = true := hmi.phAdv rfl
    rcases hdisj with ⟨hc0, hi, htn, hf1, hf2⟩ | ⟨hc0, hi, htn, hf1, hf2⟩ |
      ⟨hc0, hi, hf1, hf2⟩
    · -- cons_mark_next with the cursor at the head: descend into the tail
      have hOcls : O.cls = .consC := hclsO.trans hc0
      have hchild : childrenOf O₀ = [O₀.fld1, O₀.fld2] := by
        simp [childrenOf, hc0]
      have hobj : s.obj = O₀.fld1 := by
        rw [hchild, hi] at hget
        simp at hget
        exact hget.symm
      have hcongr : ∀ b, markedB (s.heap.update s.parent
          { O with fld1 := s.obj, fld2 := O.fld1, tailIsNext := false }) b =
          markedB s.heap b := fun b => @markedB_update_congr s.heap s.parent O
        { O with fld1 := s.obj, fld2 := O.fld1, tailIsNext := false } hl rfl b
      refine ⟨.start, ⟨O.fld2, s.parent, s.heap.update s.parent
          { O with fld1 := s.obj, fld2 := O.fld1, tailIsNext := false }⟩,
        ⟨s.parent, 1⟩ :: fs, ?_, ?_, ?_⟩
      · simp [markStep, hp, hl, markNextOf, hOcls, cons_mark_next, htn]
      · refine ⟨?_, ?_, ?_, ?_, ?_, ?_, ?_, ?_, ?_, ?_, ?_⟩
        · rw [update_keys]; exact hmi.keys
        · intro a A₀ ha
          by_cases hab : a = s.parent
          · subst hab
            have hA : A₀ = O₀ := some_some ha hl₀
            exact ⟨_, lookup_update_self _ (by simp [hl]), by simp [hA, hclsO]⟩
          · obtain ⟨B, hB, hBc⟩ := hmi.simCls a A₀ ha
            exact ⟨B, by rw [lookup_update_other _ _ hab]; exact hB, hBc⟩
        · intro a A₀ A ha hA hnfr
          rw [frameAddrs, List.map_cons, List.mem_cons] at hnfr
          push_neg at hnfr
          rw [lookup_update_other _ _ hnfr.1] at hA
          exact hmi.simFld a A₀ A ha hA (hnotfrold a hnfr.1 hnfr.2)
        · refine ⟨rfl, hp, O₀, _, gp, hl₀,
            lookup_update_self _ (by simp [hl]), hOm, ?_, ⟨by simp [hclsO], ?_⟩, ?_⟩
          · simp [hchild, hf2]
          · exact Or.inr (Or.inl ⟨hc0, rfl, rfl, by simp [hobj], by simp [hf1]⟩)
          · exact chain_update_notin _ hnd' hrest
        · rw [frameAddrs, List.map_cons, List.nodup_cons]
          exact ⟨hnd', hndfs⟩
        · intro a hma
          rw [hcongr a] at hma
          exact hmi.soundM a hma
        · intro a hma
          rw [hcongr a]
          exact hmi.monoM a hma
        · intro a A₀ ha hma hnfr c hc
          rw [frameAddrs, List.map_cons, List.mem_cons] at hnfr
          push_neg at hnfr
          rw [hcongr a] at hma
          rw [hcongr c]
          exact hmi.closedNB a A₀ ha hma (hnotfrold a hnfr.1 hnfr.2) c hc
        · intro g hg A₀ ha c hc
          rcases List.mem_cons.mp hg with hge | hge
          · subst hge
            have hA : A₀ = O₀ := some_some ha hl₀
            subst hA
            rw [hchild] at hc
            simp at hc
            rw [hc, ← hobj, hcongr s.obj]
            exact hmadv
          · rw [hcongr c]
            exact hmi.takeClosed g (List.mem_cons_of_mem f hge) A₀ ha c hc
        · intro _
          have hcm : O₀.fld2 ∈ childrenOf O₀ := by simp [hchild]
          have := hwf.2.2 (s.parent, O₀) hmem₀ O₀.fld2 hcm
          rw [hf2]; exact this
        · exact fun h => nomatch h
      · have hUC : unmarkedCount (s.heap.update s.parent
            { O with fld1 := s.obj, fld2 := O.fld1, tailIsNext := false }) =
            unmarkedCount s.heap := unmarkedCount_update_congr hndk hl rfl
        have har : arityAt h₀ s.parent = 2 := by
          simp [arityAt, hl₀, hc0, clsArity]
        have harf : arityAt h₀ f.addr = 2 := by rw [← hpf]; exact har
        have hW1 : frWeight h₀ (⟨s.parent, 1⟩ :: fs) = 1 + frWeight h₀ fs := by
          simp [frWeight, har]
        have hW0 : frWeight h₀ (f :: fs) = 2 + frWeight h₀ fs := by
          simp [frWeight, harf, hi]
        simp only [muM, phaseRank]
        rw [hUC, hW1, hW0]
        omega
    · -- cons_mark_next with the cursor at the tail: restore and pop
      have hOcls : O.cls = .consC := hclsO.trans hc0
      have hchild : childrenOf O₀ = [O₀.fld1, O₀.fld2] := by
        simp [childrenOf, hc0]
      have hobj1 : s.obj = O₀.fld2 := by
        rw [hchild, hi] at hget
        simp at hget
        exact hget.symm
      have hcongr : ∀ b, markedB (s.heap.update s.parent
          { O with fld2 := s.obj }) b = markedB s.heap b :=
        fun b => @markedB_update_congr s.heap s.parent O
          { O with fld2 := s.obj } hl rfl b
      refine ⟨.advance, ⟨s.parent, O.fld2, s.heap.update s.parent
          { O with fld2 := s.obj }⟩, fs, ?_, ?_, ?_⟩
      · simp [markStep, hp, hl, markNextOf, hOcls, cons_mark_next, htn]
      · refine ⟨?_, ?_, ?_, ?_, ?_, ?_, ?_, ?_, ?_, ?_, ?_⟩
        · rw [update_keys]; exact hmi.keys
        · intro a A₀ ha
          by_cases hab : a = s.parent
          · subst hab
            have hA : A₀ = O₀ := some_some ha hl₀
            exact ⟨_, lookup_update_self _ (by simp [hl]), by simp [hA, hclsO]⟩
          · obtain ⟨B, hB, hBc⟩ := hmi.simCls a A₀ ha
            exact ⟨B, by rw [lookup_update_other _ _ hab]; exact hB, hBc⟩
        · intro a A₀ A ha hA hnfr
          by_cases hab : a = s.parent
          · subst hab
            rw [lookup_update_self _ (by simp [hl])] at hA
            have hAeq : A = { O with fld2 := s.obj } := (Option.some.inj hA).symm
            have hA0 : A₀ = O₀ := some_some ha hl₀
            subst hAeq; subst hA0
            exact ⟨by simpa using hf1, by simpa using hobj1⟩
          · rw [lookup_update_other _ _ hab] at hA
            exact hmi.simFld a A₀ A ha hA (hnotfrold a hab hnfr)
        · rw [hf2]
          exact chain_update_notin _ hnd' hrest
        · exact hndfs
        · intro a hma
          rw [hcongr a] at hma
          exact hmi.soundM a hma
        · intro a hma
          rw [hcongr a]
          exact hmi.monoM a hma
        · intro a A₀ ha hma hnfr c hc
          rw [hcongr a] at hma
          rw [hcongr c]
          by_cases hab : a = s.parent
          · subst hab
            have hA : O₀ = A₀ := some_some hl₀ ha
            subst hA
            rw [hchild] at hc
            rcases List.mem_cons.mp hc with hce | hce
            · subst hce
              have hlf : h₀.lookup f.addr = some O₀ := by rw [← hpf]; exact hl₀
              have hm1 : O₀.fld1 ∈ (childrenOf O₀).take f.idx := by
                rw [hchild, hi]; simp
              exact hmi.takeClosed f (List.mem_cons_self f fs) O₀ hlf O₀.fld1 hm1
            · have hce' : c = O₀.fld2 := by simpa using hce
              rw [hce', ← hobj1]
              exact hmadv
          · exact hmi.closedNB a A₀ ha hma (hnotfrold a hab hnfr) c hc
        · intro g hg A₀ ha c hc
          rw [hcongr c]
          exact hmi.takeClosed g (List.mem_cons_of_mem f hg) A₀ ha c hc
        · exact fun h => nomatch h
        · intro _
          rw [markedB_update_self _ (by simp [hl])]
          exact hOm
      · have hUC : unmarkedCount (s.heap.update s.parent
            { O with fld2 := s.obj }) = unmarkedCount s.heap :=
          unmarkedCount_update_congr hndk hl rfl
        have harf : arityAt h₀ f.addr = 2 := by
          rw [← hpf]; simp [arityAt, hl₀, hc0, clsArity]
        have hW0 : frWeight h₀ (f :: fs) = 1 + frWeight h₀ fs := by
          simp [frWeight, harf, hi]
        simp only [muM, phaseRank]
        rw [hUC, hW0]
        omega
    · -- function_mark_next: restore the data field and pop
      have hOcls : O.cls = .funC := hclsO.trans hc0
      have hchild : childrenOf O₀ = [O₀.fld1] := by
        simp [childrenOf, hc0]
      have hobj : s.obj = O₀.fld1 := by
        rw [hchild, hi] at hget
        simp at hget
        exact hget.symm
      have hcongr : ∀ b, markedB (s.heap.update s.parent
          { O with fld1 := s.obj }) b = markedB s.heap b :=
        fun b => @markedB_update_congr s.heap s.parent O
          { O with fld1 := s.obj } hl rfl b
      refine ⟨.advance, ⟨s.parent, O.fld1, s.heap.update s.parent
          { O with fld1 := s.obj }⟩, fs, ?_, ?_, ?_⟩
      · simp [markStep, hp, hl, markNextOf, hOcls, function_mark_next]
      · refine ⟨?_, ?_, ?_, ?_, ?_, ?_, ?_, ?_, ?_, ?_, ?_⟩
        · rw [update_keys]; exact hmi.keys
        · intro a A₀ ha
          by_cases hab : a = s.parent
          · subst hab
            have hA : A₀ = O₀ := some_some ha hl₀
            exact ⟨_, lookup_update_self _ (by simp [hl]), by simp [hA, hclsO]⟩
          · obtain ⟨B, hB, hBc⟩ := hmi.simCls a A₀ ha
            exact ⟨B, by rw [lookup_update_other _ _ hab]; exact hB, hBc⟩
        · intro a A₀ A ha hA hnfr
          by_cases hab : a = s.parent
          · subst hab
            rw [lookup_update_self _ (by simp [hl])] at hA
            have hAeq : A = { O with fld1 := s.obj } := (Option.some.inj hA).symm
            have hA0 : A₀ = O₀ := some_some ha hl₀
            subst hAeq; subst hA0
            exact ⟨by simpa using hobj, by simpa using hf2⟩
          · rw [lookup_update_other _ _ hab] at hA
            exact hmi.simFld a A₀ A ha hA (hnotfrold a hab hnfr)
        · rw [hf1]
          exact chain_update_notin _ hnd' hrest
        · exact hndfs
        · intro a hma
          rw [hcongr a] at hma
          exact hmi.soundM a hma
        · intro a hma
          rw [hcongr a]
          exact hmi.monoM a hma
        · intro a A₀ ha hma hnfr c hc
          rw [hcongr a] at hma
          rw [hcongr c]
          by_cases hab : a = s.parent
          · subst hab
            have hA : A₀ = O₀ := some_some ha hl₀
            subst hA
            rw [hchild] at hc
            simp at hc
            rw [hc, ← hobj]
            exact hmadv
          · exact hmi.closedNB a A₀ ha hma (hnotfrold a hab hnfr) c hc
        · intro g hg A₀ ha c hc
          rw [hcongr c]
          exact hmi.takeClosed g (List.mem_cons_of_mem f hg) A₀ ha c hc
        · exact fun h => nomatch h
        · intro _
          rw [markedB_update_self _ (by simp [hl])]
          exact hOm
      · have hUC : unmarkedCount (s.heap.update s.parent
            { O with fld1 := s.obj }) = unmarkedCount s.heap :=
          unmarkedCount_update_congr hndk hl rfl
        have harf : arityAt h₀ f.addr = 1 := by
          rw [← hpf]; simp [arityAt, hl₀, hc0, clsArity]
        have hW0 : frWeight h₀ (f :: fs) = 1 + frWeight h₀ fs := by
          simp [frWeight, harf, hi]
        simp only [muM, phaseRank]
        rw [hUC, hW0]
        omega

/-- Running the marker from any state satisfying the invariant reaches the
terminal configuration (`ADVANCE` with null parent) within `muM + 1`
steps. -/
theorem markRun_master {h₀ : Heap} {root : Addr} (hwf : WfHeap h₀) :
    ∀ n : Nat, ∀ {ph : Phase} {s : MarkState} {fr : List Frame},
      MI h₀ root ph s fr → muM h₀ ph s fr ≤ n →
      ∃ s', markRun (n + 1) ph s = some s' ∧ s'.parent = 0 ∧
        MI h₀ root .advance s' [] := by
  intro n
  induction n with
  | zero =>
    intro ph s fr hmi hmu
    cases ph with
    | start =>
      obtain ⟨ph', s', fr', hstep, hmi', hmu'⟩ := mi_step_start hwf hmi
      omega
    | advance =>
      rcases mi_step_advance hwf hmi with ⟨hstep, hp, hfr⟩ |
        ⟨ph', s', fr', hstep, hmi', hmu'⟩
      · refine ⟨s, ?_, hp, ?_⟩
        · rw [markRun, hstep]
        · rw [hfr] at hmi; exact hmi
      · omega
  | succ k ih =>
    intro ph s fr hmi hmu
    cases ph with
    | start =>
      obtain ⟨ph', s', fr', hstep, hmi', hmu'⟩ := mi_step_start hwf hmi
      obtain ⟨s2, hrun, hp2, hmi2⟩ := ih hmi' (by omega)
      exact ⟨s2, by rw [markRun, hstep]; exact hrun, hp2, hmi2⟩
    | advance =>
      rcases mi_step_advance hwf hmi with ⟨hstep, hp, hfr⟩ |
        ⟨ph', s', fr', hstep, hmi', hmu'⟩
      · refine ⟨s, ?_, hp, ?_⟩
        · rw [markRun, hstep]
        · rw [hfr] at hmi; exact hmi
      · obtain ⟨s2, hrun, hp2, hmi2⟩ := ih hmi' (by omega)
        exact ⟨s2, by rw [markRun, hstep]; exact hrun, hp2, hmi2⟩

/-- Entry to `mark(root)` establishes the invariant. -/
theorem mi_init {h : Heap} {root : Addr}
    (hroot : (h.lookup root).isSome = true) (hclosed : ClosedMarked h) :
    MI h root .start ⟨root, 0, h⟩ [] := by
  refine ⟨rfl, ?_, ?_, ⟨rfl, rfl⟩, by simp [frameAddrs], ?_, ?_, ?_, ?_, ?_, ?_⟩
  · exact fun a O₀ ha => ⟨O₀, ha, rfl⟩
  · intro a A₀ A ha hA _
    have : A = A₀ := some_some hA ha
    subst this
    exact ⟨rfl, rfl⟩
  · exact fun a hma => Or.inl hma
  · exact fun a hma => hma
  · intro a O₀ ha hma _ c hc
    have hm : O₀.marked = true := by rw [markedB_some ha] at hma; exact hma
    exact hclosed (a, O₀) (lookup_mem ha) hm c hc
  · intro f hf
    exact absurd hf (List.not_mem_nil f)
  · exact fun _ => hroot
  · exact fun h => nomatch h

/-- From the terminal invariant: the field contents are restored, the key
list is unchanged, and the marked bits are exactly the old marked bits
plus everything reachable from the root. -/
theorem mi_final {h₀ : Heap} {root : Addr} {s' : MarkState}
    (hmi : MI h₀ root .advance s' []) :
    s'.heap.keys = h₀.keys ∧
    (∀ a O₀, h₀.lookup a = some O₀ → ∃ O, s'.heap.lookup a = some O ∧
      O.cls = O₀.cls ∧ O.fld1 = O₀.fld1 ∧ O.fld2 = O₀.fld2) ∧
    (∀ a, markedB s'.heap a = true ↔
      (markedB h₀ a = true ∨ Reaches h₀ root a)) := by
  have hobj : s'.obj = root := hmi.chain.2
  refine ⟨hmi.keys, ?_, ?_⟩
  · intro a O₀ ha
    obtain ⟨O, hO, hOc⟩ := hmi.simCls a O₀ ha
    have hfl := hmi.simFld a O₀ O ha hO (by simp [frameAddrs])
    exact ⟨O, hO, hOc, hfl.1, hfl.2⟩
  · intro a
    constructor
    · exact hmi.soundM a
    · intro hcase
      rcases hcase with hm | hr
      · exact hmi.monoM a hm
      · induction hr with
        | refl =>
          have := hmi.phAdv rfl
          rw [hobj] at this
          exact this
        | step hb hlb hcb ihb =>
          exact hmi.closedNB _ _ hlb ihb (by simp [frameAddrs]) _ hcb

theorem unmarkedCount_le_length (h : Heap) : unmarkedCount h ≤ h.length :=
  List.length_filter_le _ h

/-- `mark(root)` returns (never aborts) on a well-formed heap whose marked
objects are closed under children, restores every object's fields and
class, preserves the heap list addresses, and marks exactly the objects
reachable from `root` in addition to the previously marked ones. -/
theorem mark_spec {h : Heap} {root : Addr} (hwf : WfHeap h)
    (hroot : (h.lookup root).isSome = true) (hclosed : ClosedMarked h) :
    ∃ h', mark h root = some h' ∧ h'.keys = h.keys ∧
      (∀ a O₀, h.lookup a = some O₀ → ∃ O, h'.lookup a = some O ∧
        O.cls = O₀.cls ∧ O.fld1 = O₀.fld1 ∧ O.fld2 = O₀.fld2) ∧
      (∀ a, markedB h' a = true ↔ (markedB h a = true ∨ Reaches h root a)) := by
  have hmu : muM h .start ⟨root, 0, h⟩ [] ≤
      h.length * (4 * h.length + 2) + 1 := by
    have hle : unmarkedCount h ≤ h.length := unmarkedCount_le_length h
    have hmul : unmarkedCount h * (4 * h.length + 2) ≤
        h.length * (4 * h.length + 2) :=
      Nat.mul_le_mul_right _ hle
    simp only [muM, phaseRank, frWeight, List.map_nil, List.sum_nil]
    omega
  obtain ⟨s', hrun, hp, hmi⟩ :=
    markRun_master hwf (h.length * (4 * h.length + 2) + 1)
      (mi_init hroot hclosed) hmu
  obtain ⟨hkeys, hsim, hiff⟩ := mi_final hmi
  refine ⟨s'.heap, ?_, hkeys, hsim, hiff⟩
  have hfuel : markFuel h = h.length * (4 * h.length + 2) + 1 + 1 := by
    simp [markFuel]
  rw [mark, hfuel, hrun]
  rfl

/-! ### Heap similarity: same addresses, classes and payload fields
(only mark bits and traversal scratch may differ) -/

/-- `h1` has the same address list as `h` and every object of `h` survives
in `h1` with the same class and child fields. -/
def SimH (h h1 : Heap) : Prop :=
  h1.keys = h.keys ∧
  ∀ a O₀, h.lookup a = some O₀ → ∃ O, h1.lookup a = some O ∧
    O.cls = O₀.cls ∧ O.fld1 = O₀.fld1 ∧ O.fld2 = O₀.fld2

theorem simH_refl (h : Heap) : SimH h h :=
  ⟨rfl, fun _ O₀ ha => ⟨O₀, ha, rfl, rfl, rfl⟩⟩

theorem simH_trans {h h1 h2 : Heap} (h01 : SimH h h1) (h12 : SimH h1 h2) :
    SimH h h2 := by
  refine ⟨h12.1.trans h01.1, ?_⟩
  intro a O₀ ha
  obtain ⟨O, hO, hc, h1f, h2f⟩ := h01.2 a O₀ ha
  obtain ⟨P, hP, hc', h1f', h2f'⟩ := h12.2 a O hO
  exact ⟨P, hP, hc'.trans hc, h1f'.trans h1f, h2f'.trans h2f⟩

theorem simH_symm {h h1 : Heap} (hs : SimH h h1) : SimH h1 h := by
  refine ⟨hs.1.symm, ?_⟩
  intro a O₁ ha
  have hk : a ∈ h.keys := by
    rw [← hs.1]
    exact lookup_isSome_iff.mp (by simp [ha])
  obtain ⟨O₀, hO₀⟩ : ∃ O₀, h.lookup a = some O₀ := by
    cases hx : h.lookup a with
    | none =>
      rw [← lookup_isSome_iff] at hk
      rw [hx] at hk; simp at hk
    | some B => exact ⟨B, rfl⟩
  obtain ⟨O, hO, hc, h1f, h2f⟩ := hs.2 a O₀ hO₀
  have : O = O₁ := some_some hO ha
  subst this
  exact ⟨O₀, hO₀, hc.symm, h1f.symm, h2f.symm⟩

theorem childrenOf_congr {O₀ O : Obj} (hc : O.cls = O₀.cls)
    (h1 : O.fld1 = O₀.fld1) (h2 : O.fld2 = O₀.fld2) :
    childrenOf O = childrenOf O₀ := by
  cases hO : O₀.cls <;> simp [childrenOf, hc, hO, h1, h2]

theorem reaches_of_simH {h h1 : Heap} (hs : SimH h h1) {r a : Addr}
    (hr : Reaches h r a) : Reaches h1 r a := by
  induction hr with
  | refl => exact Reaches.refl
  | step hb hlb hcb ih =>
    obtain ⟨O, hO, hc, h1f, h2f⟩ := hs.2 _ _ hlb
    exact Reaches.step ih hO (by rw [childrenOf_congr hc h1f h2f]; exact hcb)

theorem reaches_iff_simH {h h1 : Heap} (hs : SimH h h1) (r a : Addr) :
    Reaches h r a ↔ Reaches h1 r a :=
  ⟨reaches_of_simH hs, reaches_of_simH (simH_symm hs)⟩

theorem wf_of_simH {h h1 : Heap} (hwf : WfHeap h) (hs : SimH h h1) :
    WfHeap h1 := by
  have hnd1 : h1.keys.Nodup := by rw [hs.1]; exact hwf.1
  refine ⟨hnd1, ?_, ?_⟩
  · intro q hq
    have hk : q.1 ∈ h.keys := by rw [← hs.1]; exact List.mem_map.mpr ⟨q, hq, rfl⟩
    obtain ⟨O₀, hO₀⟩ : ∃ O₀, h.lookup q.1 = some O₀ := by
      cases hx : h.lookup q.1 with
      | none =>
        rw [← lookup_isSome_iff] at hk
        rw [hx] at hk; simp at hk
      | some B => exact ⟨B, rfl⟩
    exact hwf.2.1 (q.1, O₀) (lookup_mem hO₀)
  · intro q hq c hc
    have hk : q.1 ∈ h.keys := by rw [← hs.1]; exact List.mem_map.mpr ⟨q, hq, rfl⟩
    obtain ⟨O₀, hO₀⟩ : ∃ O₀, h.lookup q.1 = some O₀ := by
      cases hx : h.lookup q.1 with
      | none =>
        rw [← lookup_isSome_iff] at hk
        rw [hx] at hk; simp at hk
      | some B => exact ⟨B, rfl⟩
    obtain ⟨O, hO, hcls, h1f, h2f⟩ := hs.2 q.1 O₀ hO₀
    have hq2 : q.2 = O := some_some (mem_lookup hnd1 hq) hO
    have hcc : c ∈ childrenOf O₀ := by
      rw [← childrenOf_congr hcls h1f h2f, ← hq2]; exact hc
    have := hwf.2.2 (q.1, O₀) (lookup_mem hO₀) c hcc
    rw [lookup_isSome_iff] at this ⊢
    rw [hs.1]; exact this

theorem closedMarked_of_markIff {h h1 : Heap} (hwf : WfHeap h)
    (hs : SimH h h1) {root : Addr}
    (hiff : ∀ a, markedB h1 a = true ↔ (markedB h a = true ∨ Reaches h root a))
    (hclosed : ClosedMarked h) : ClosedMarked h1 := by
  intro q hq hm c hc
  have hnd1 : h1.keys.Nodup := (wf_of_simH hwf hs).1
  have hl1 : h1.lookup q.1 = some q.2 := mem_lookup hnd1 hq
  have hmq : markedB h1 q.1 = true := by rw [markedB_some hl1]; exact hm
  -- recover the original object
  have hk : q.1 ∈ h.keys := by rw [← hs.1]; exact List.mem_map.mpr ⟨q, hq, rfl⟩
  obtain ⟨O₀, hO₀⟩ : ∃ O₀, h.lookup q.1 = some O₀ := by
    cases hx : h.lookup q.1 with
    | none =>
      rw [← lookup_isSome_iff] at hk
      rw [hx] at hk; simp at hk
    | some B => exact ⟨B, rfl⟩
  obtain ⟨O, hO, hcls, h1f, h2f⟩ := hs.2 q.1 O₀ hO₀
  have hq2 : q.2 = O := some_some hl1 hO
  have hcc : c ∈ childrenOf O₀ := by
    rw [← childrenOf_congr hcls h1f h2f, ← hq2]; exact hc
  rw [hiff]
  rcases (hiff q.1).mp hmq with holder | hreach
  · left
    have hmO₀ : O₀.marked = true := by
      rw [markedB_some hO₀] at holder; exact holder
    exact hclosed (q.1, O₀) (lookup_mem hO₀) hmO₀ c hcc
  · right
    exact Reaches.step hreach hO₀ hcc

/-! ### The mark phase of `gc`: mark every root in turn -/

/-- The root-marking loop of `gc`: dereference each root stack entry and
`mark` it. -/
def markRoots : Heap → List Addr → Option Heap
  | h, [] => some h
  | h, r :: rs =>
    match mark h r with
    | none => none
    | some h1 => markRoots h1 rs

/-- After the mark phase: same addresses, classes and fields, and the
marked objects are the previously marked ones plus everything reachable
from a root value. -/
theorem markRoots_spec : ∀ {vs : List Addr} {h : Heap}, WfHeap h →
    (∀ v ∈ vs, (h.lookup v).isSome = true) → ClosedMarked h →
    ∃ h', markRoots h vs = some h' ∧ SimH h h' ∧
      (∀ a, markedB h' a = true ↔
        (markedB h a = true ∨ ∃ v ∈ vs, Reaches h v a)) := by
  intro vs
  induction vs with
  | nil =>
    intro h _ _ _
    exact ⟨h, rfl, simH_refl h, by simp⟩
  | cons r rs ih =>
    intro h hwf hvs hclosed
    obtain ⟨h1, hmark, hkeys, hsim, hiff⟩ :=
      mark_spec hwf (hvs r (List.mem_cons_self r rs)) hclosed
    have hs1 : SimH h h1 := ⟨hkeys, hsim⟩
    have hwf1 : WfHeap h1 := wf_of_simH hwf hs1
    have hvs1 : ∀ v ∈ rs, (h1.lookup v).isSome = true := by
      intro v hv
      rw [lookup_isSome_iff, hkeys, ← lookup_isSome_iff]
      exact hvs v (List.mem_cons_of_mem r hv)
    have hclosed1 : ClosedMarked h1 :=
      closedMarked_of_markIff hwf hs1 hiff hclosed
    obtain ⟨h2, hrest, hs2, hiff2⟩ := ih hwf1 hvs1 hclosed1
    refine ⟨h2, ?_, simH_trans hs1 hs2, ?_⟩
    · rw [markRoots, hmark]; exact hrest
    · intro a
      rw [hiff2 a]
      constructor
      · intro hcase
        rcases hcase with hm1 | ⟨v, hv, hr⟩
        · rcases (hiff a).mp hm1 with hm | hr
          · exact Or.inl hm
          · exact Or.inr ⟨r, List.mem_cons_self r rs, hr⟩
        · exact Or.inr ⟨v, List.mem_cons_of_mem r hv,
            reaches_of_simH (simH_symm hs1) hr⟩
      · intro hcase
        rcases hcase with hm | ⟨v, hv, hr⟩
        · exact Or.inl ((hiff a).mpr (Or.inl hm))
        · rcases List.mem_cons.mp hv with hvr | hvr
          · subst hvr
            exact Or.inl ((hiff a).mpr (Or.inr hr))
          · exact Or.inr ⟨v, hvr, reaches_of_simH hs1 hr⟩

/-! ### The sweep phase of `gc` -/

/-- The sweep loop of `gc`: walk the heap list, keep every marked object
with its mark cleared, unlink and dispose every unmarked one. -/
def sweep : Heap → Heap
  | [] => []
  | q :: t =>
    if q.2.marked then (q.1, { q.2 with marked := false }) :: sweep t
    else sweep t

theorem lookup_none_iff {h : Heap} {a : Addr} :
    h.lookup a = none ↔ a ∉ h.keys := by
  rw [← lookup_isSome_iff]
  cases h.lookup a <;> simp

theorem sweep_keys_sublist (h : Heap) : (sweep h).keys.Sublist h.keys := by
  induction h with
  | nil => exact List.Sublist.refl _
  | cons q t ih =>
    by_cases hm : q.2.marked
    · rw [sweep, if_pos hm]
      exact List.Sublist.cons₂ q.1 ih
    · rw [sweep, if_neg hm]
      exact List.Sublist.cons q.1 ih

theorem sweep_all_unmarked (h : Heap) : AllUnmarked (sweep h) := by
  induction h with
  | nil => intro q hq; simp [sweep] at hq
  | cons q t ih =>
    intro p hp
    by_cases hm : q.2.marked
    · rw [sweep, if_pos hm] at hp
      rcases List.mem_cons.mp hp with hpe | hpe
      · subst hpe; rfl
      · exact ih p hpe
    · rw [sweep, if_neg hm] at hp
      exact ih p hp

theorem sweep_lookup_marked {h : Heap} (hnd : h.keys.Nodup) {a : Addr}
    {O : Obj} (hl : h.lookup a = some O) (hm : O.marked = true) :
    (sweep h).lookup a = some { O with marked := false } := by
  induction h with
  | nil => simp [Heap.lookup] at hl
  | cons q t ih =>
    rw [Heap.keys, List.map_cons, List.nodup_cons] at hnd
    by_cases hq : a = q.1
    · have hqO : q.2 = O := by
        rw [Heap.lookup, if_pos hq] at hl
        exact Option.some.inj hl
      rw [sweep, if_pos (by rw [hqO]; exact hm), Heap.lookup, if_pos hq, hqO]
    · have hl' : Heap.lookup t a = some O := by
        rw [Heap.lookup, if_neg hq] at hl; exact hl
      by_cases hqm : q.2.marked
      · rw [sweep, if_pos hqm, Heap.lookup, if_neg hq]
        exact ih hnd.2 hl'
      · rw [sweep, if_neg hqm]
        exact ih hnd.2 hl'

theorem sweep_lookup_unmarked {h : Heap} (hnd : h.keys.Nodup) {a : Addr}
    {O : Obj} (hl : h.lookup a = some O) (hm : O.marked = false) :
    (sweep h).lookup a = none := by
  induction h with
  | nil => simp [Heap.lookup] at hl
  | cons q t ih =>
    rw [Heap.keys, List.map_cons, List.nodup_cons] at hnd
    by_cases hq : a = q.1
    · have hqO : q.2 = O := by
        rw [Heap.lookup, if_pos hq] at hl
        exact Option.some.inj hl
      rw [sweep, if_neg (by rw [hqO, hm]; exact Bool.false_ne_true)]
      rw [lookup_none_iff]
      intro hmem
      have := (sweep_keys_sublist t).subset hmem
      rw [hq] at this
      exact hnd.1 this
    · have hl' : Heap.lookup t a = some O := by
        rw [Heap.lookup, if_neg hq] at hl; exact hl
      by_cases hqm : q.2.marked
      · rw [sweep, if_pos hqm, Heap.lookup, if_neg hq]
        exact ih hnd.2 hl'
      · rw [sweep, if_neg hqm]
        exact ih hnd.2 hl'

theorem sweep_lookup_none {h : Heap} {a : Addr} (hl : h.lookup a = none) :
    (sweep h).lookup a = none := by
  rw [lookup_none_iff] at hl ⊢
  intro hmem
  exact hl ((sweep_keys_sublist h).subset hmem)

theorem sweep_keys_of_all_marked {h : Heap}
    (hm : ∀ q ∈ h, q.2.marked = true) : (sweep h).keys = h.keys := by
  induction h with
  | nil => rfl
  | cons q t ih =>
    rw [sweep, if_pos (hm q (List.mem_cons_self q t))]
    rw [Heap.keys, List.map_cons, Heap.keys, List.map_cons]
    rw [← Heap.keys, ← Heap.keys, ih (fun p hp => hm p (List.mem_cons_of_mem q hp))]

theorem sweep_length_le (h : Heap) : (sweep h).length ≤ h.length := by
  have := (sweep_keys_sublist h).length_le
  simpa [Heap.keys] using this

theorem keys_length (h : Heap) : h.keys.length = h.length := by
  simp [Heap.keys]

theorem allUnmarked_markedB {h : Heap} (hun : AllUnmarked h) (a : Addr) :
    markedB h a = false := by
  cases hx : h.lookup a with
  | none => simp [markedB, hx]
  | some O =>
    rw [markedB, hx]
    exact hun (a, O) (lookup_mem hx)

theorem closedMarked_of_allUnmarked {h : Heap} (hun : AllUnmarked h) :
    ClosedMarked h := by
  intro q hq hm
  rw [hun q hq] at hm
  exact absurd hm Bool.false_ne_true

theorem reaches_transfer {h h' : Heap} {v a : Addr}
    (hnodes : ∀ b, Reaches h v b → ∃ O₀ O, h.lookup b = some O₀ ∧
      h'.lookup b = some O ∧ childrenOf O = childrenOf O₀)
    (hr : Reaches h v a) : Reaches h' v a := by
  induction hr with
  | refl => exact Reaches.refl
  | step hb hlb hcb ih =>
    obtain ⟨O₀, O, hO₀, hO, hc⟩ := hnodes _ hb
    have he : O₀ = _ := some_some hO₀ hlb
    exact Reaches.step ih hO (by rw [hc, he]; exact hcb)

/-! ### The collector: mark from every root, then sweep -/

/-- The heap transformation performed by `gc()`: mark from every
dereferenced root stack entry, then sweep. -/
def gcHeap (h : Heap) (vs : List Addr) : Option Heap :=
  match markRoots h vs with
  | none => none
  | some h1 => some (sweep h1)

/-- The collector's heap-level specification, for a heap satisfying the
invariant (well-formed, all marks clear, roots dereferenceable). -/
theorem gcHeap_spec {h : Heap} {vs : List Addr} (hwf : WfHeap h)
    (hun : AllUnmarked h) (hvs : ∀ v ∈ vs, (h.lookup v).isSome = true) :
    ∃ h', gcHeap h vs = some h' ∧
      h'.keys.Sublist h.keys ∧
      AllUnmarked h' ∧
      (∀ a, (h'.lookup a).isSome = true ↔
        ((h.lookup a).isSome = true ∧ ∃ v ∈ vs, Reaches h v a)) ∧
      (∀ a O₀, h.lookup a = some O₀ → (∃ v ∈ vs, Reaches h v a) →
        ∃ O, h'.lookup a = some O ∧ O.marked = false ∧ O.cls = O₀.cls ∧
          O.fld1 = O₀.fld1 ∧ O.fld2 = O₀.fld2) ∧
      WfHeap h' := by
  obtain ⟨h1, hmr, hs1, hiff⟩ :=
    markRoots_spec hwf hvs (closedMarked_of_allUnmarked hun)
  have hiff1 : ∀ a, markedB h1 a = true ↔ ∃ v ∈ vs, Reaches h v a := by
    intro a
    rw [hiff a]
    simp [allUnmarked_markedB hun a]
  have hnd1 : h1.keys.Nodup := (wf_of_simH hwf hs1).1
  have hsur : ∀ a, ((sweep h1).lookup a).isSome = true ↔
      ((h.lookup a).isSome = true ∧ ∃ v ∈ vs, Reaches h v a) := by
    intro a
    constructor
    · intro hsw
      cases hx : h1.lookup a with
      | none =>
        rw [sweep_lookup_none hx] at hsw
        simp at hsw
      | some O =>
        cases hOm : O.marked with
        | false =>
          rw [sweep_lookup_unmarked hnd1 hx hOm] at hsw
          simp at hsw
        | true =>
          have hm1 : markedB h1 a = true := by rw [markedB_some hx]; exact hOm
          refine ⟨?_, (hiff1 a).mp hm1⟩
          rw [lookup_isSome_iff, ← hs1.1, ← lookup_isSome_iff]
          simp [hx]
    · intro ⟨hsome, hreach⟩
      have hm1 : markedB h1 a = true := (hiff1 a).mpr hreach
      cases hx : h1.lookup a with
      | none => rw [markedB, hx] at hm1; exact absurd hm1 Bool.false_ne_true
      | some O =>
        have hOm : O.marked = true := by rw [markedB, hx] at hm1; exact hm1
        rw [sweep_lookup_marked hnd1 hx hOm]
        rfl
  have hflds : ∀ a O₀, h.lookup a = some O₀ → (∃ v ∈ vs, Reaches h v a) →
      ∃ O, (sweep h1).lookup a = some O ∧ O.marked = false ∧ O.cls = O₀.cls ∧
        O.fld1 = O₀.fld1 ∧ O.fld2 = O₀.fld2 := by
    intro a O₀ hl hreach
    obtain ⟨O, hO, hcls, hf1, hf2⟩ := hs1.2 a O₀ hl
    have hOm : O.marked = true := by
      have := (hiff1 a).mpr hreach
      rw [markedB_some hO] at this
      exact this
    exact ⟨{ O with marked := false }, sweep_lookup_marked hnd1 hO hOm,
      rfl, hcls, hf1, hf2⟩
  have hsubl : (sweep h1).keys.Sublist h.keys := by
    rw [← hs1.1]; exact sweep_keys_sublist h1
  have hwf' : WfHeap (sweep h1) := by
    refine ⟨hsubl.nodup hwf.1, ?_, ?_⟩
    · intro q hq
      have hk : q.1 ∈ h.keys := hsubl.subset (List.mem_map.mpr ⟨q, hq, rfl⟩)
      obtain ⟨O₀, hO₀⟩ : ∃ O₀, h.lookup q.1 = some O₀ := by
        cases hx : h.lookup q.1 with
        | none =>
          rw [← lookup_isSome_iff] at hk
          rw [hx] at hk; simp at hk
        | some B => exact ⟨B, rfl⟩
      exact hwf.2.1 (q.1, O₀) (lookup_mem hO₀)
    · intro q hq c hc
      have hndsw : (sweep h1).keys.Nodup := hsubl.nodup hwf.1
      have hlq : (sweep h1).lookup q.1 = some q.2 := mem_lookup hndsw hq
      have hs : ((sweep h1).lookup q.1).isSome = true := by simp [hlq]
      obtain ⟨hsome, v, hv, hreach⟩ := (hsur q.1).mp hs
      obtain ⟨O₀, hO₀⟩ : ∃ O₀, h.lookup q.1 = some O₀ := by
        cases hx : h.lookup q.1 with
        | none => rw [hx] at hsome; simp at hsome
        | some B => exact ⟨B, rfl⟩
      obtain ⟨O, hO, hOm, hcls, hf1, hf2⟩ := hflds q.1 O₀ hO₀ ⟨v, hv, hreach⟩
      have hq2 : q.2 = O := some_some hlq hO
      have hcc : c ∈ childrenOf O₀ := by
        rw [← childrenOf_congr hcls hf1 hf2, ← hq2]; exact hc
      have hrc : Reaches h v c := Reaches.step hreach hO₀ hcc
      rw [hsur c]
      exact ⟨hwf.2.2 (q.1, O₀) (lookup_mem hO₀) c hcc, v, hv, hrc⟩
  refine ⟨sweep h1, ?_, hsubl, sweep_all_unmarked h1, hsur, hflds, hwf'⟩
  rw [gcHeap, hmr]

/-! ### The global interpreter state and the public entry points

`GState` packages the globals of `gcl.c`: the heap list with
`object_count`, the mutator-owned cells (identified by numeric ids, the
analogue of their addresses) and the root stack, which holds cell ids
(`struct object **`). -/

structure GState where
  heap : Heap
  count : Nat
  cells : List (Nat × Addr)
  roots : List Nat
  deriving DecidableEq, Repr

/-- Read a mutator cell (the `*root` dereference); `0` if absent. -/
def cellGet : List (Nat × Addr) → Nat → Addr
  | [], _ => 0
  | q :: t, c => if c = q.1 then q.2 else cellGet t c

/-- Write a mutator cell, creating it if absent (a stack local coming into
scope). -/
def cellPut : List (Nat × Addr) → Nat → Addr → List (Nat × Addr)
  | [], c, v => [(c, v)]
  | q :: t, c, v => if c = q.1 then (c, v) :: t else q :: cellPut t c v

/-- The values currently held by the cells on the root stack, top first. -/
def rootVals (s : GState) : List Addr := s.roots.map (cellGet s.cells)

/-- `push_root(&cell)`. -/
def push_root (s : GState) (c : Nat) : GState :=
  { s with roots := c :: s.roots }

/-- `pop_root()`; an unbalanced pop aborts (`stack_pop` underflow). -/
def pop_root (s : GState) : Option GState :=
  match s.roots with
  | [] => none
  | _ :: t => some { s with roots := t }

/-- `set_root(&cell, value)`. -/
def set_root (s : GState) (c : Nat) (v : Addr) : GState :=
  { s with cells := cellPut s.cells c v }

/-- `gc()`: mark from every root stack entry in turn, then sweep; the
sweep loop decrements `object_count` once per disposed object. -/
def gc (s : GState) : Option GState :=
  match gcHeap s.heap (rootVals s) with
  | none => none
  | some h' =>
    some { s with heap := h', count := s.count - (s.heap.length - h'.length) }

/-- `register_object(o, class)`: collect when `object_count` is at the
10,000 cap, report a fatal error (`none`) when still at the cap
afterwards, otherwise link the object at the head of the heap list with
`marked = false` and bump `object_count`. -/
def register_object (s : GState) (a : Addr) (o : Obj) : Option GState :=
  match (if s.count = 10000 then gc s else some s) with
  | none => none
  | some s1 =>
    if s1.count = 10000 then none
    else some { s1 with
      heap := (a, { o with marked := false }) :: s1.heap,
      count := s1.count + 1 }

/-- The cell ids of the three permanent global root cells. -/
def nilRootCell : Nat := 0
def opCell : Nat := 1
def contCell : Nat := 2

/-- The address of the statically allocated `nil_value` singleton. -/
def nilAddr : Addr := 1

def nilObj : Obj :=
  { marked := false, cls := .nilC, tailIsNext := false, fld1 := 0, fld2 := 0 }

/-- The state produced by `init_globals()`: the nil singleton registered on
an empty heap and the permanent roots `nil_root`, `operand_stack`,
`cont_stack` pushed (all three cells hold `nil_value`). -/
def init_globals : GState :=
  { heap := [(nilAddr, nilObj)]
    count := 1
    cells := [(nilRootCell, nilAddr), (opCell, nilAddr), (contCell, nilAddr)]
    roots := [contCell, opCell, nilRootCell] }

/-- `create_nil()` returns the nil singleton without touching the state. -/
def create_nil (s : GState) : Addr × GState := (nilAddr, s)

/-- `create_cons(head, tail)`: initialize the payload, root the two child
references in the stack cells `cH`, `cT`, register the object at the fresh
address `a` (this may run `gc`), then pop the two temporary roots. -/
def create_cons (s : GState) (a : Addr) (cH cT : Nat) (hd tl : Addr) :
    Option GState :=
  let s1 := push_root (set_root (push_root (set_root s cH hd) cH) cT tl) cT
  match register_object s1 a
      { marked := false, cls := .consC, tailIsNext := false,
        fld1 := hd, fld2 := tl } with
  | none => none
  | some s2 =>
    match pop_root s2 with
    | none => none
    | some s3 => pop_root s3

/-- `create_atom(buffer)`: atoms have no child references, so the object
is registered directly. -/
def create_atom (s : GState) (a : Addr) : Option GState :=
  register_object s a
    { marked := false, cls := .atomC, tailIsNext := false, fld1 := 0, fld2 := 0 }

/-- `create_function(apply, data)`: root the data reference, register,
pop. -/
def create_function (s : GState) (a : Addr) (cD : Nat) (d : Addr) :
    Option GState :=
  let s1 := push_root (set_root s cD d) cD
  match register_object s1 a
      { marked := false, cls := .funC, tailIsNext := false,
        fld1 := d, fld2 := 0 } with
  | none => none
  | some s2 => pop_root s2

/-- `destruct_cons(o, &head, &tail)`: fails fast on a non-cons. -/
def destruct_cons (s : GState) (a : Addr) : Option (Addr × Addr) :=
  match s.heap.lookup a with
  | none => none
  | some O => if O.cls = .consC then some (O.fld1, O.fld2) else none

/-- `push(object)` on the operand stack: cons the object onto the current
stack and store the new cons into the `operand_stack` cell. -/
def push (s : GState) (a : Addr) (cH cT : Nat) (obj : Addr) :
    Option GState :=
  match create_cons s a cH cT obj (cellGet s.cells opCell) with
  | none => none
  | some s1 => some (set_root s1 opCell a)

/-- `pop()` on the operand stack: error (`none`) when the stack head is
not a cons; otherwise return the head and store the tail back. -/
def pop (s : GState) : Option (Addr × GState) :=
  match s.heap.lookup (cellGet s.cells opCell) with
  | none => none
  | some O =>
    if O.cls = .consC then some (O.fld1, set_root s opCell O.fld2)
    else none

/-- `push_cont(object)` on the continuation stack. -/
def push_cont (s : GState) (a : Addr) (cH cT : Nat) (obj : Addr) :
    Option GState :=
  match create_cons s a cH cT obj (cellGet s.cells contCell) with
  | none => none
  | some s1 => some (set_root s1 contCell a)

/-- `pop_cont()`: unlike `pop`, an empty continuation stack (the cell does
not hold a cons) returns the null pointer and leaves the state alone. -/
def pop_cont (s : GState) : Option (Addr × GState) :=
  match s.heap.lookup (cellGet s.cells contCell) with
  | none => none
  | some O =>
    if O.cls = .consC then some (O.fld1, set_root s contCell O.fld2)
    else some (0, s)

/-! ### The public entry points as a transition system -/

/-- One public entry point call, with the allocator-chosen fresh addresses
and stack-local cell ids as parameters. -/
inductive Op where
  | opRegister (a : Addr) (o : Obj)
  | opGc
  | opPushRoot (c : Nat) (v : Addr)
  | opPopRoot
  | opSetRoot (c : Nat) (v : Addr)
  | opCreateCons (a : Addr) (cH cT : Nat) (hd tl : Addr)
  | opCreateAtom (a : Addr)
  | opCreateFunction (a : Addr) (cD : Nat) (d : Addr)
  | opPush (a : Addr) (cH cT : Nat) (obj : Addr)
  | opPop
  | opPushCont (a : Addr) (cH cT : Nat) (obj : Addr)
  | opPopCont
  | opCreateNil
  | opDestructCons (a : Addr)
  deriving DecidableEq, Repr

/-- Execute one public entry point (`opPushRoot` models the mutator
writing a heap reference into a cell and pushing the cell's address). -/
def stepOp (s : GState) : Op → Option GState
  | .opRegister a o => register_object s a o
  | .opGc => gc s
  | .opPushRoot c v => some (push_root (set_root s c v) c)
  | .opPopRoot => pop_root s
  | .opSetRoot c v => some (set_root s c v)
  | .opCreateCons a cH cT hd tl => create_cons s a cH cT hd tl
  | .opCreateAtom a => create_atom s a
  | .opCreateFunction a cD d => create_function s a cD d
  | .opPush a cH cT obj => push s a cH cT obj
  | .opPop => (pop s).map Prod.snd
  | .opPushCont a cH cT obj => push_cont s a cH cT obj
  | .opPopCont => (pop_cont s).map Prod.snd
  | .opCreateNil => some (create_nil s).2
  | .opDestructCons a => (destruct_cons s a).map (fun _ => s)

/-- The contract the mutator must honour when invoking an entry point:
allocator addresses are fresh and nonzero, heap references passed in are
heap-resident, child references of a registered object are rooted, and
stack-local cells do not alias cells already on the root stack. -/
def ValidOp (s : GState) : Op → Prop
  | .opRegister a o => a ≠ 0 ∧ a ∉ s.heap.keys ∧
      ∀ c ∈ childrenOf o, ∃ rc ∈ s.roots, cellGet s.cells rc = c
  | .opGc => True
  | .opPushRoot c v => (s.heap.lookup v).isSome = true ∧ c ∉ s.roots
  | .opPopRoot => True
  | .opSetRoot c v => (s.heap.lookup v).isSome = true
  | .opCreateCons a cH cT hd tl => a ≠ 0 ∧ a ∉ s.heap.keys ∧
      (s.heap.lookup hd).isSome = true ∧ (s.heap.lookup tl).isSome = true ∧
      cH ≠ cT ∧ cH ∉ s.roots ∧ cT ∉ s.roots
  | .opCreateAtom a => a ≠ 0 ∧ a ∉ s.heap.keys
  | .opCreateFunction a cD d => a ≠ 0 ∧ a ∉ s.heap.keys ∧
      (s.heap.lookup d).isSome = true ∧ cD ∉ s.roots
  | .opPush a cH cT obj => a ≠ 0 ∧ a ∉ s.heap.keys ∧
      (s.heap.lookup obj).isSome = true ∧
      (s.heap.lookup (cellGet s.cells opCell)).isSome = true ∧
      cH ≠ cT ∧ cH ∉ s.roots ∧ cT ∉ s.roots
  | .opPop => True
  | .opPushCont a cH cT obj => a ≠ 0 ∧ a ∉ s.heap.keys ∧
      (s.heap.lookup obj).isSome = true ∧
      (s.heap.lookup (cellGet s.cells contCell)).isSome = true ∧
      cH ≠ cT ∧ cH ∉ s.roots ∧ cT ∉ s.roots
  | .opPopCont => True
  | .opCreateNil => True
  | .opDestructCons _ => True

/-- The global invariant of §8 of the specification: well-formed heap, all
marks clear, `object_count` equal to the heap list length, and every root
stack entry dereferencing to an object on the heap list. -/
def Inv (s : GState) : Prop :=
  WfHeap s.heap ∧ AllUnmarked s.heap ∧ s.count = s.heap.length ∧
  ∀ c ∈ s.roots, (s.heap.lookup (cellGet s.cells c)).isSome = true

instance (s : GState) : Decidable (Inv s) := by
  unfold Inv; infer_instance

instance (s : GState) (op : Op) : Decidable (ValidOp s op) := by
  cases op <;> (unfold ValidOp; infer_instance)

/-! ### Specifications of the public entry points -/

theorem cellGet_put_self (cells : List (Nat × Addr)) (c : Nat) (v : Addr) :
    cellGet (cellPut cells c v) c = v := by
  induction cells with
  | nil => simp [cellPut, cellGet]
  | cons q t ih =>
    by_cases hq : c = q.1
    · simp [cellPut, cellGet, hq]
    · simp [cellPut, cellGet, hq, ih]

theorem cellGet_put_other (cells : List (Nat × Addr)) {c c' : Nat}
    (v : Addr) (hne : c' ≠ c) :
    cellGet (cellPut cells c v) c' = cellGet cells c' := by
  induction cells with
  | nil => simp [cellPut, cellGet, hne]
  | cons q t ih =>
    by_cases hq : c = q.1
    · subst hq
      simp [cellPut, cellGet, hne]
    · by_cases hq' : c' = q.1
      · simp [cellPut, cellGet, hq, hq']
      · simp [cellPut, cellGet, hq, hq', ih]

theorem lookup_cons_isSome {h : Heap} {c : Addr} (a : Addr) (o : Obj)
    (hs : (h.lookup c).isSome = true) :
    (Heap.lookup ((a, o) :: h) c).isSome = true := by
  by_cases hc : c = a
  · simp [Heap.lookup, hc]
  · simpa [Heap.lookup, hc] using hs

/-- `gc()` never aborts when the global invariant holds; it leaves the
root stack and the cells alone, preserves the invariant, and its heap is
exactly the heap-resident objects reachable from the root values, with
their classes and child fields intact and marks clear. -/
theorem gc_spec {s : GState} (hInv : Inv s) :
    ∃ s', gc s = some s' ∧ s'.roots = s.roots ∧ s'.cells = s.cells ∧ Inv s' ∧
      s'.heap.keys.Sublist s.heap.keys ∧
      (∀ a, (s'.heap.lookup a).isSome = true ↔
        ((s.heap.lookup a).isSome = true ∧ ∃ v ∈ rootVals s, Reaches s.heap v a)) ∧
      (∀ a O₀, s.heap.lookup a = some O₀ →
        (∃ v ∈ rootVals s, Reaches s.heap v a) →
        ∃ O, s'.heap.lookup a = some O ∧ O.marked = false ∧ O.cls = O₀.cls ∧
          O.fld1 = O₀.fld1 ∧ O.fld2 = O₀.fld2) := by
  obtain ⟨hwf, hun, hcount, hroots⟩ := hInv
  have hvs : ∀ v ∈ rootVals s, (s.heap.lookup v).isSome = true := by
    intro v hv
    obtain ⟨c, hc, hcv⟩ := List.mem_map.mp hv
    rw [← hcv]
    exact hroots c hc
  obtain ⟨h', hgc, hsubl, hun', hiff, hflds, hwf'⟩ := gcHeap_spec hwf hun hvs
  have hle : h'.length ≤ s.heap.length := by
    have := hsubl.length_le
    simpa [keys_length] using this
  refine ⟨⟨h', s.count - (s.heap.length - h'.length), s.cells, s.roots⟩,
    by rw [gc, hgc], rfl, rfl, ⟨hwf', hun', ?_, ?_⟩, hsubl, hiff, hflds⟩
  · show s.count - (s.heap.length - h'.length) = h'.length
    omega
  · intro c hc
    rw [hiff]
    exact ⟨hroots c hc, cellGet s.cells c, List.mem_map.mpr ⟨c, hc, rfl⟩,
      Reaches.refl⟩

/-- Linking a fresh object whose children are heap-resident preserves the
invariant. -/
theorem inv_link {s1 : GState} (hInv1 : Inv s1) {a : Addr} {o : Obj}
    (ha0 : a ≠ 0) (hfresh : a ∉ s1.heap.keys)
    (hcs : ∀ c ∈ childrenOf o, (s1.heap.lookup c).isSome = true) :
    Inv { s1 with heap := (a, { o with marked := false }) :: s1.heap
                  count := s1.count + 1 } := by
  obtain ⟨⟨hnd, hnz, hch⟩, hun, hcount, hroots⟩ := hInv1
  refine ⟨⟨?_, ?_, ?_⟩, ?_, ?_, ?_⟩
  · show (a :: s1.heap.keys).Nodup
    exact List.nodup_cons.mpr ⟨hfresh, hnd⟩
  · intro q hq
    rcases List.mem_cons.mp hq with hqe | hqe
    · rw [hqe]; exact ha0
    · exact hnz q hqe
  · intro q hq c hc
    rcases List.mem_cons.mp hq with hqe | hqe
    · have hc' : c ∈ childrenOf o := by
        rw [hqe] at hc
        rw [@childrenOf_congr o { o with marked := false } rfl rfl rfl] at hc
        exact hc
      exact lookup_cons_isSome a _ (hcs c hc')
    · exact lookup_cons_isSome a _ (hch q hqe c hc)
  · intro q hq
    rcases List.mem_cons.mp hq with hqe | hqe
    · rw [hqe]
    · exact hun q hqe
  · show s1.count + 1 = ((a, { o with marked := false }) :: s1.heap).length
    rw [List.length_cons]
    omega
  · intro c hc
    exact lookup_cons_isSome a _ (hroots c hc)

/-- `register_object` at a fresh nonzero address with rooted children:
when it returns, the invariant holds, the object is on the heap list with
its mark cleared, and the root stack and cells are untouched. -/
theorem register_object_spec {s : GState} {a : Addr} {o : Obj}
    (hInv : Inv s) (ha0 : a ≠ 0) (hfresh : a ∉ s.heap.keys)
    (hch : ∀ c ∈ childrenOf o, ∃ rc ∈ s.roots, cellGet s.cells rc = c) :
    ∀ {s' : GState}, register_object s a o = some s' →
      Inv s' ∧ s'.heap.lookup a = some { o with marked := false } ∧
      s'.roots = s.roots ∧ s'.cells = s.cells := by
  intro s' hreg
  by_cases hcap : s.count = 10000
  · obtain ⟨sg, hgc, hrts, hcls, hInvg, hsubl, hiff, hflds⟩ := gc_spec hInv
    have hreg2 : (if sg.count = 10000 then none
        else some { sg with
          heap := (a, { o with marked := false }) :: sg.heap
          count := sg.count + 1 }) = some s' := by
      rw [register_object, if_pos hcap, hgc] at hreg
      exact hreg
    by_cases hcap2 : sg.count = 10000
    · rw [if_pos hcap2] at hreg2
      exact absurd hreg2 (by simp)
    · rw [if_neg hcap2] at hreg2
      have hs' : s' = { sg with
          heap := (a, { o with marked := false }) :: sg.heap
          count := sg.count + 1 } := (Option.some.inj hreg2).symm
      subst hs'
      have hfresh' : a ∉ sg.heap.keys := fun hmem => hfresh (hsubl.subset hmem)
      have hcs : ∀ c ∈ childrenOf o, (sg.heap.lookup c).isSome = true := by
        intro c hc
        obtain ⟨rc, hrc, hval⟩ := hch c hc
        have := hInvg.2.2.2 rc (by rw [hrts]; exact hrc)
        rw [hcls, hval] at this
        exact this
      exact ⟨inv_link hInvg ha0 hfresh' hcs, by simp [Heap.lookup],
        by simp [hrts], by simp [hcls]⟩
  · have hreg' : (if s.count = 10000 then none
        else some { s with heap := (a, { o with marked := false }) :: s.heap
                           count := s.count + 1 }) = some s' := by
      rw [register_object, if_neg hcap] at hreg
      exact hreg
    rw [if_neg hcap] at hreg'
    have hs' : s' = { s with
        heap := (a, { o with marked := false }) :: s.heap
        count := s.count + 1 } := (Option.some.inj hreg').symm
    subst hs'
    have hcs : ∀ c ∈ childrenOf o, (s.heap.lookup c).isSome = true := by
      intro c hc
      obtain ⟨rc, hrc, hval⟩ := hch c hc
      have := hInv.2.2.2 rc hrc
      rw [hval] at this
      exact this
    exact ⟨inv_link hInv ha0 hfresh hcs, by simp [Heap.lookup], rfl, rfl⟩

theorem inv_roots_subset {s : GState} (hInv : Inv s) {rs : List Nat}
    (hsub : ∀ c ∈ rs, c ∈ s.roots) : Inv { s with roots := rs } :=
  ⟨hInv.1, hInv.2.1, hInv.2.2.1, fun c hc => hInv.2.2.2 c (hsub c hc)⟩

theorem inv_set_root {s : GState} (hInv : Inv s) {c : Nat} {v : Addr}
    (hv : (s.heap.lookup v).isSome = true) : Inv (set_root s c v) := by
  refine ⟨hInv.1, hInv.2.1, hInv.2.2.1, ?_⟩
  intro c' hc'
  by_cases hcc : c' = c
  · subst hcc
    show (s.heap.lookup (cellGet (cellPut s.cells c' v) c')).isSome = true
    rw [cellGet_put_self]
    exact hv
  · show (s.heap.lookup (cellGet (cellPut s.cells c v) c')).isSome = true
    rw [cellGet_put_other _ _ hcc]
    exact hInv.2.2.2 c' hc'

theorem inv_push_root {s : GState} (hInv : Inv s) {c : Nat}
    (hc : (s.heap.lookup (cellGet s.cells c)).isSome = true) :
    Inv (push_root s c) := by
  refine ⟨hInv.1, hInv.2.1, hInv.2.2.1, ?_⟩
  intro c' hc'
  rcases List.mem_cons.mp hc' with he | he
  · subst he; exact hc
  · exact hInv.2.2.2 c' he

theorem inv_pop_root {s : GState} (hInv : Inv s) :
    ∀ {s' : GState}, pop_root s = some s' → Inv s' := by
  intro s' hpop
  cases hr : s.roots with
  | nil => simp [pop_root, hr] at hpop
  | cons c t =>
    simp [pop_root, hr] at hpop
    rw [← hpop]
    exact inv_roots_subset hInv
      (fun c' hc' => by rw [hr]; exact List.mem_cons_of_mem c hc')

/-- `create_cons` at fresh address and fresh temporary cells: invariant
preserved, the cons is on the heap with the requested head and tail, and
the temporary roots are popped again. -/
theorem create_cons_spec {s : GState} {a : Addr} {cH cT : Nat}
    {hd tl : Addr} (hInv : Inv s) (ha0 : a ≠ 0) (hfresh : a ∉ s.heap.keys)
    (hhd : (s.heap.lookup hd).isSome = true)
    (htl : (s.heap.lookup tl).isSome = true)
    (hHT : cH ≠ cT) (hcH : cH ∉ s.roots) (hcT : cT ∉ s.roots) :
    ∀ {s' : GState}, create_cons s a cH cT hd tl = some s' →
      Inv s' ∧ s'.heap.lookup a = some
        { marked := false, cls := .consC, tailIsNext := false,
          fld1 := hd, fld2 := tl } ∧
      s'.roots = s.roots := by
  intro s' hcc
  rw [create_cons] at hcc
  simp only [push_root, set_root] at hcc
  have hInv1 : Inv { s with
      cells := cellPut (cellPut s.cells cH hd) cT tl
      roots := cT :: cH :: s.roots } := by
    refine ⟨hInv.1, hInv.2.1, hInv.2.2.1, ?_⟩
    intro c hc
    rcases List.mem_cons.mp hc with he | hc2
    · subst he
      show (s.heap.lookup
        (cellGet (cellPut (cellPut s.cells cH hd) c tl) c)).isSome = true
      rw [cellGet_put_self]
      exact htl
    · rcases List.mem_cons.mp hc2 with he | hc3
      · subst he
        show (s.heap.lookup
          (cellGet (cellPut (cellPut s.cells c hd) cT tl) c)).isSome = true
        rw [cellGet_put_other _ _ hHT, cellGet_put_self]
        exact hhd
      · have h1 : c ≠ cT := fun he => hcT (he ▸ hc3)
        have h2 : c ≠ cH := fun he => hcH (he ▸ hc3)
        show (s.heap.lookup
          (cellGet (cellPut (cellPut s.cells cH hd) cT tl) c)).isSome = true
        rw [cellGet_put_other _ _ h1, cellGet_put_other _ _ h2]
        exact hInv.2.2.2 c hc3
  cases hreg : register_object { s with
      cells := cellPut (cellPut s.cells cH hd) cT tl
      roots := cT :: cH :: s.roots } a
      { marked := false, cls := .consC, tailIsNext := false,
        fld1 := hd, fld2 := tl } with
  | none => rw [hreg] at hcc; simp at hcc
  | some s2 =>
    rw [hreg] at hcc
    have hch1 : ∀ c ∈ childrenOf
        ({ marked := false, cls := .consC, tailIsNext := false,
           fld1 := hd, fld2 := tl } : Obj),
        ∃ rc ∈ (cT :: cH :: s.roots),
          cellGet (cellPut (cellPut s.cells cH hd) cT tl) rc = c := by
      intro c hc
      rcases List.mem_cons.mp (by simpa [childrenOf] using hc :
          c ∈ [hd, tl]) with he | he
      · subst he
        refine ⟨cH, List.mem_cons_of_mem cT (List.mem_cons_self cH _), ?_⟩
        rw [cellGet_put_other _ _ hHT, cellGet_put_self]
      · have he' : c = tl := by simpa using he
        subst he'
        exact ⟨cT, List.mem_cons_self cT _, cellGet_put_self _ _ _⟩
    obtain ⟨hInv2, hlook2, hrts2, hcls2⟩ :=
      register_object_spec hInv1 ha0 hfresh hch1 hreg
    have hrts2' : s2.roots = cT :: cH :: s.roots := hrts2
    have hp1 : pop_root s2 = some { s2 with roots := cH :: s.roots } := by
      simp [pop_root, hrts2']
    have hcc2 : (match pop_root s2 with
        | none => none
        | some s3 => pop_root s3) = some s' := hcc
    rw [hp1] at hcc2
    have hp2 : pop_root { s2 with roots := cH :: s.roots } =
        some { s2 with roots := s.roots } := by
      simp [pop_root]
    have hcc3 : pop_root { s2 with roots := cH :: s.roots } = some s' := hcc2
    rw [hp2] at hcc3
    have hs'e : s' = { s2 with roots := s.roots } := (Option.some.inj hcc3).symm
    subst hs'e
    refine ⟨?_, ?_, rfl⟩
    · refine inv_roots_subset hInv2 ?_
      intro c hc
      rw [hrts2']
      exact List.mem_cons_of_mem cT (List.mem_cons_of_mem cH hc)
    · exact hlook2

/-- `create_atom`: invariant preserved, atom linked. -/
theorem create_atom_spec {s : GState} {a : Addr} (hInv : Inv s)
    (ha0 : a ≠ 0) (hfresh : a ∉ s.heap.keys) :
    ∀ {s' : GState}, create_atom s a = some s' →
      Inv s' ∧ s'.roots = s.roots ∧ s'.cells = s.cells := by
  intro s' hca
  have hch : ∀ c ∈ childrenOf
      ({ marked := false, cls := .atomC, tailIsNext := false,
         fld1 := 0, fld2 := 0 } : Obj),
      ∃ rc ∈ s.roots, cellGet s.cells rc = c := by
    intro c hc
    simp [childrenOf] at hc
  obtain ⟨hInv', _, hrts, hcls⟩ :=
    register_object_spec hInv ha0 hfresh hch hca
  exact ⟨hInv', hrts, hcls⟩

/-- `create_function`: invariant preserved, function linked with its data
child. -/
theorem create_function_spec {s : GState} {a : Addr} {cD : Nat} {d : Addr}
    (hInv : Inv s) (ha0 : a ≠ 0) (hfresh : a ∉ s.heap.keys)
    (hd : (s.heap.lookup d).isSome = true) (hcD : cD ∉ s.roots) :
    ∀ {s' : GState}, create_function s a cD d = some s' →
      Inv s' ∧ s'.roots = s.roots := by
  intro s' hcf
  rw [create_function] at hcf
  simp only [push_root, set_root] at hcf
  have hInv1 : Inv { s with cells := cellPut s.cells cD d
                            roots := cD :: s.roots } := by
    refine ⟨hInv.1, hInv.2.1, hInv.2.2.1, ?_⟩
    intro c hc
    rcases List.mem_cons.mp hc with he | hc2
    · subst he
      show (s.heap.lookup (cellGet (cellPut s.cells c d) c)).isSome = true
      rw [cellGet_put_self]
      exact hd
    · have h2 : c ≠ cD := fun he => hcD (he ▸ hc2)
      show (s.heap.lookup (cellGet (cellPut s.cells cD d) c)).isSome = true
      rw [cellGet_put_other _ _ h2]
      exact hInv.2.2.2 c hc2
  cases hreg : register_object { s with cells := cellPut s.cells cD d
                                        roots := cD :: s.roots } a
      { marked := false, cls := .funC, tailIsNext := false,
        fld1 := d, fld2 := 0 } with
  | none => rw [hreg] at hcf; simp at hcf
  | some s2 =>
    rw [hreg] at hcf
    have hch1 : ∀ c ∈ childrenOf
        ({ marked := false, cls := .funC, tailIsNext := false,
           fld1 := d, fld2 := 0 } : Obj),
        ∃ rc ∈ (cD :: s.roots), cellGet (cellPut s.cells cD d) rc = c := by
      intro c hc
      have he : c = d := by simpa [childrenOf] using hc
      subst he
      exact ⟨cD, List.mem_cons_self cD _, cellGet_put_self _ _ _⟩
    obtain ⟨hInv2, hlook2, hrts2, hcls2⟩ :=
      register_object_spec hInv1 ha0 hfresh hch1 hreg
    have hrts2' : s2.roots = cD :: s.roots := hrts2
    have hp1 : pop_root s2 = some { s2 with roots := s.roots } := by
      simp [pop_root, hrts2']
    have hcf2 : pop_root s2 = some s' := hcf
    rw [hp1] at hcf2
    have hs'e : s' = { s2 with roots := s.roots } := (Option.some.inj hcf2).symm
    subst hs'e
    refine ⟨?_, rfl⟩
    refine inv_roots_subset hInv2 ?_
    intro c hc
    rw [hrts2']
    exact List.mem_cons_of_mem cD hc

/-- The state established by `init_globals` satisfies the global
invariant. -/
theorem inv_init_globals : Inv init_globals := by decide

/-- Every public entry point, invoked in accordance with its contract,
preserves the global invariant. -/
theorem inv_stepOp {s : GState} {op : Op} (hInv : Inv s)
    (hval : ValidOp s op) :
    ∀ {s' : GState}, stepOp s op = some s' → Inv s' := by
  intro s' hstep
  cases op with
  | opRegister a o =>
    obtain ⟨ha0, hfresh, hch⟩ := hval
    exact (register_object_spec hInv ha0 hfresh hch hstep).1
  | opGc =>
    obtain ⟨sg, hgc, _, _, hInvg, _⟩ := gc_spec hInv
    have h2 : gc s = some s' := hstep
    rw [hgc] at h2
    rw [← Option.some.inj h2]
    exact hInvg
  | opPushRoot c v =>
    have h2 : push_root (set_root s c v) c = s' := Option.some.inj hstep
    rw [← h2]
    refine inv_push_root (inv_set_root hInv hval.1) ?_
    show (s.heap.lookup (cellGet (cellPut s.cells c v) c)).isSome = true
    rw [cellGet_put_self]
    exact hval.1
  | opPopRoot => exact inv_pop_root hInv hstep
  | opSetRoot c v =>
    have h2 : set_root s c v = s' := Option.some.inj hstep
    rw [← h2]
    exact inv_set_root hInv hval
  | opCreateCons a cH cT hd tl =>
    obtain ⟨ha0, hfresh, hhd, htl, hHT, hcH, hcT⟩ := hval
    exact (create_cons_spec hInv ha0 hfresh hhd htl hHT hcH hcT hstep).1
  | opCreateAtom a =>
    exact (create_atom_spec hInv hval.1 hval.2 hstep).1
  | opCreateFunction a cD d =>
    obtain ⟨ha0, hfresh, hd, hcD⟩ := hval
    exact (create_function_spec hInv ha0 hfresh hd hcD hstep).1
  | opPush a cH cT obj =>
    obtain ⟨ha0, hfresh, hobj, hop, hHT, hcH, hcT⟩ := hval
    have h2 : push s a cH cT obj = some s' := hstep
    rw [push] at h2
    cases hcc : create_cons s a cH cT obj (cellGet s.cells opCell) with
    | none => rw [hcc] at h2; simp at h2
    | some s1 =>
      rw [hcc] at h2
      have h3 : set_root s1 opCell a = s' := by
        have h4 : some (set_root s1 opCell a) = some s' := h2
        exact Option.some.inj h4
      obtain ⟨hInv1, hlook1, hrts1⟩ :=
        create_cons_spec hInv ha0 hfresh hobj hop hHT hcH hcT hcc
      rw [← h3]
      exact inv_set_root hInv1 (by simp [hlook1])
  | opPop =>
    have h2 : (pop s).map Prod.snd = some s' := hstep
    rw [pop] at h2
    cases hl : s.heap.lookup (cellGet s.cells opCell) with
    | none => rw [hl] at h2; simp at h2
    | some O =>
      rw [hl] at h2
      have h3 : Option.map Prod.snd (if O.cls = ObjClass.consC
          then some (O.fld1, set_root s opCell O.fld2) else none) =
          some s' := h2
      by_cases hcls : O.cls = ObjClass.consC
      · rw [if_pos hcls] at h3
        have hse : set_root s opCell O.fld2 = s' := by simpa using h3
        rw [← hse]
        refine inv_set_root hInv ?_
        have hmem : (cellGet s.cells opCell, O) ∈ s.heap := lookup_mem hl
        exact hInv.1.2.2 _ hmem O.fld2 (by simp [childrenOf, hcls])
      · rw [if_neg hcls] at h3
        simp at h3
  | opPushCont a cH cT obj =>
    obtain ⟨ha0, hfresh, hobj, hop, hHT, hcH, hcT⟩ := hval
    have h2 : push_cont s a cH cT obj = some s' := hstep
    rw [push_cont] at h2
    cases hcc : create_cons s a cH cT obj (cellGet s.cells contCell) with
    | none => rw [hcc] at h2; simp at h2
    | some s1 =>
      rw [hcc] at h2
      have h3 : set_root s1 contCell a = s' := by
        have h4 : some (set_root s1 contCell a) = some s' := h2
        exact Option.some.inj h4
      obtain ⟨hInv1, hlook1, hrts1⟩ :=
        create_cons_spec hInv ha0 hfresh hobj hop hHT hcH hcT hcc
      rw [← h3]
      exact inv_set_root hInv1 (by simp [hlook1])
  | opPopCont =>
    have h2 : (pop_cont s).map Prod.snd = some s' := hstep
    rw [pop_cont] at h2
    cases hl : s.heap.lookup (cellGet s.cells contCell) with
    | none => rw [hl] at h2; simp at h2
    | some O =>
      rw [hl] at h2
      have h3 : Option.map Prod.snd (if O.cls = ObjClass.consC
          then some (O.fld1, set_root s contCell O.fld2)
          else some (0, s)) = some s' := h2
      by_cases hcls : O.cls = ObjClass.consC
      · rw [if_pos hcls] at h3
        have hse : set_root s contCell O.fld2 = s' := by simpa using h3
        rw [← hse]
        refine inv_set_root hInv ?_
        have hmem : (cellGet s.cells contCell, O) ∈ s.heap := lookup_mem hl
        exact hInv.1.2.2 _ hmem O.fld2 (by simp [childrenOf, hcls])
      · rw [if_neg hcls] at h3
        have hse : s = s' := by simpa using h3
        rw [← hse]
        exact hInv
  | opCreateNil =>
    have h2 : s = s' := Option.some.inj hstep
    rw [← h2]
    exact hInv
  | opDestructCons a =>
    have h2 : (destruct_cons s a).map (fun _ => s) = some s' := hstep
    cases hd : destruct_cons s a with
    | none => rw [hd] at h2; simp at h2
    | some pr =>
      rw [hd] at h2
      have hse : s = s' := by simpa using h2
      rw [← hse]
      exact hInv

/-- One public entry point call, guarded by its contract: an entry point
invoked in violation of the mutator's obligations is not an execution of
the program. -/
def stepOpChecked (s : GState) (op : Op) : Option GState :=
  if ValidOp s op then stepOp s op else none

/-- Run a sequence of public entry point calls. -/
def runOps : GState → List Op → Option GState
  | s, [] => some s
  | s, op :: ops =>
    match stepOpChecked s op with
    | none => none
    | some s1 => runOps s1 ops

theorem inv_runOps : ∀ {ops : List Op} {s s' : GState}, Inv s →
    runOps s ops = some s' → Inv s' := by
  intro ops
  induction ops with
  | nil =>
    intro s s' hInv h
    have h2 : s = s' := Option.some.inj h
    rw [← h2]
    exact hInv
  | cons op ops ih =>
    intro s s' hInv h
    have h2 : (match stepOpChecked s op with
        | none => none
        | some s1 => runOps s1 ops) = some s' := h
    cases hst : stepOpChecked s op with
    | none => rw [hst] at h2; simp at h2
    | some s1 =>
      rw [hst] at h2
      have hval : ValidOp s op ∧ stepOp s op = some s1 := by
        rw [stepOpChecked] at hst
        by_cases hv : ValidOp s op
        · rw [if_pos hv] at hst; exact ⟨hv, hst⟩
        · rw [if_neg hv] at hst; simp at hst
      exact ih (inv_stepOp hInv hval.1 hval.2) h2

/-! ### Concrete states used by the witnesses -/

def atomObj : Obj :=
  { marked := false, cls := .atomC, tailIsNext := false, fld1 := 0, fld2 := 0 }

/-- A heap state with the nil singleton and one unrooted (garbage) atom. -/
def gstate1 : GState :=
  { heap := [(nilAddr, nilObj), (2, atomObj)]
    count := 2
    cells := [(nilRootCell, nilAddr), (opCell, nilAddr), (contCell, nilAddr)]
    roots := [contCell, opCell, nilRootCell] }

/-- A well-formed all-unmarked heap with a two-cons cycle
(`2.head = 3`, `3.head = 2`, both tails nil). -/
def hcyc : Heap :=
  [(1, nilObj),
   (2, { marked := false, cls := .consC, tailIsNext := false, fld1 := 3, fld2 := 1 }),
   (3, { marked := false, cls := .consC, tailIsNext := false, fld1 := 2, fld2 := 1 })]

/-- A well-formed all-unmarked heap with a cons `2` whose head is the
atom `3` and whose tail is nil, plus an unreachable atom `4`. -/
def hlin : Heap :=
  [(1, nilObj),
   (2, { marked := false, cls := .consC, tailIsNext := false, fld1 := 3, fld2 := 1 }),
   (3, atomObj),
   (4, atomObj)]

theorem reaches_isSome {h : Heap} (hwf : WfHeap h) {v a : Addr}
    (hv : (h.lookup v).isSome = true) (hr : Reaches h v a) :
    (h.lookup a).isSome = true := by
  induction hr with
  | refl => exact hv
  | step hb hlb hcb ih => exact hwf.2.2 _ (lookup_mem hlb) _ hcb

/-! ### The claims -/

/-- C1: For every heap state satisfying the heap invariant, after `gc()`
returns, the heap list contains exactly those objects that were reachable
(via class-exposed child references, transitively) from the cells whose
addresses are on the root stack, and every object remaining in the heap
list has its marked bit equal to false. -/
theorem gc_collects_exactly_reachable {s : GState} (hInv : Inv s) :
    ∃ s', gc s = some s' ∧
      (∀ a, (s'.heap.lookup a).isSome = true ↔
        ((s.heap.lookup a).isSome = true ∧
          ∃ v ∈ rootVals s, Reaches s.heap v a)) ∧
      (∀ q ∈ s'.heap, q.2.marked = false) := by
  obtain ⟨s', hgc, _, _, hInv', _, hiff, _⟩ := gc_spec hInv
  exact ⟨s', hgc, hiff, hInv'.2.1⟩

theorem gc_collects_exactly_reachable_witness :
    Inv gstate1 ∧
    ∃ s', gc gstate1 = some s' ∧
      (∀ a, (s'.heap.lookup a).isSome = true ↔
        ((gstate1.heap.lookup a).isSome = true ∧
          ∃ v ∈ rootVals gstate1, Reaches gstate1.heap v a)) ∧
      (∀ q ∈ s'.heap, q.2.marked = false) :=
  ⟨by decide, gc_collects_exactly_reachable (by decide)⟩

/-- C2: For every heap state in which every object's marked bit is false,
and every object `r` in the heap list, after `mark(r)` returns, the set of
objects whose marked bit is true is exactly the transitive closure of `r`
under the class-exposed child relation (`r` itself and everything
reachable from it, and nothing else). -/
theorem mark_marks_exactly_closure {h : Heap} {r : Addr} (hwf : WfHeap h)
    (hun : AllUnmarked h) (hr : (h.lookup r).isSome = true) :
    ∃ h', mark h r = some h' ∧
      ∀ a, markedB h' a = true ↔ Reaches h r a := by
  obtain ⟨h', hm, hkeys, hsim, hiff⟩ :=
    mark_spec hwf hr (closedMarked_of_allUnmarked hun)
  refine ⟨h', hm, ?_⟩
  intro a
  rw [hiff a, allUnmarked_markedB hun a]
  simp

theorem mark_marks_exactly_closure_witness :
    WfHeap hlin ∧ AllUnmarked hlin ∧ (Heap.lookup hlin 2).isSome = true ∧
    ∃ h', mark hlin 2 = some h' ∧
      ∀ a, markedB h' a = true ↔ Reaches hlin 2 a :=
  ⟨by decide, by decide, by decide,
    mark_marks_exactly_closure (by decide) (by decide) (by decide)⟩

/-- C3: For every heap state in which every object's marked bit is false,
and every object `r` in the heap list, after `mark(r)` returns, every
object reachable from `r` has each of its child pointer fields (for a
cons: head and tail; for a function: data) equal to its value before the
call, even though the traversal transiently overwrites those fields. -/
theorem mark_restores_child_fields {h : Heap} {r : Addr} (hwf : WfHeap h)
    (hun : AllUnmarked h) (hr : (h.lookup r).isSome = true) :
    ∃ h', mark h r = some h' ∧
      ∀ a O₀, h.lookup a = some O₀ → Reaches h r a →
        ∃ O, h'.lookup a = some O ∧ O.cls = O₀.cls ∧
          O.fld1 = O₀.fld1 ∧ O.fld2 = O₀.fld2 := by
  obtain ⟨h', hm, hkeys, hsim, hiff⟩ :=
    mark_spec hwf hr (closedMarked_of_allUnmarked hun)
  exact ⟨h', hm, fun a O₀ ha _ => hsim a O₀ ha⟩

theorem mark_restores_child_fields_witness :
    WfHeap hcyc ∧ AllUnmarked hcyc ∧ (Heap.lookup hcyc 2).isSome = true ∧
    ∃ h', mark hcyc 2 = some h' ∧
      ∀ a O₀, Heap.lookup hcyc a = some O₀ → Reaches hcyc 2 a →
        ∃ O, h'.lookup a = some O ∧ O.cls = O₀.cls ∧
          O.fld1 = O₀.fld1 ∧ O.fld2 = O₀.fld2 :=
  ⟨by decide, by decide, by decide,
    mark_restores_child_fields (by decide) (by decide) (by decide)⟩

/-- C5: `mark` terminates on every object graph, including cyclic ones:
an already-marked object reached in the START state is not descended into
but short-circuits directly to the ADVANCE state, so the traversal reaches
the terminal configuration (ADVANCE with null parent) after finitely many
steps (within the `markFuel` bound). -/
theorem mark_terminates {h : Heap} {r : Addr} (hwf : WfHeap h)
    (hun : AllUnmarked h) (hr : (h.lookup r).isSome = true) :
    (∀ (s : MarkState) (O : Obj), s.heap.lookup s.obj = some O →
      O.marked = true → markStep .start s = .cont .advance s) ∧
    ∃ s', markRun (markFuel h) .start ⟨r, 0, h⟩ = some s' ∧
      s'.parent = 0 := by
  constructor
  · intro s O hl hm
    simp [markStep, hl, hm]
  · have hmu : muM h .start ⟨r, 0, h⟩ [] ≤
        h.length * (4 * h.length + 2) + 1 := by
      have hle := unmarkedCount_le_length h
      have hmul : unmarkedCount h * (4 * h.length + 2) ≤
          h.length * (4 * h.length + 2) := Nat.mul_le_mul_right _ hle
      simp only [muM, phaseRank, frWeight, List.map_nil, List.sum_nil]
      omega
    obtain ⟨s', hrun, hp, _⟩ := markRun_master hwf
      (h.length * (4 * h.length + 2) + 1)
      (mi_init hr (closedMarked_of_allUnmarked hun)) hmu
    have hfuel : markFuel h = h.length * (4 * h.length + 2) + 1 + 1 := by
      simp [markFuel]
    rw [hfuel]
    exact ⟨s', hrun, hp⟩

theorem mark_terminates_witness :
    WfHeap hcyc ∧ AllUnmarked hcyc ∧ (Heap.lookup hcyc 3).isSome = true ∧
    ((∀ (s : MarkState) (O : Obj), s.heap.lookup s.obj = some O →
      O.marked = true → markStep .start s = .cont .advance s) ∧
    ∃ s', markRun (markFuel hcyc) .start ⟨3, 0, hcyc⟩ = some s' ∧
      s'.parent = 0) :=
  ⟨by decide, by decide, by decide,
    mark_terminates (by decide) (by decide) (by decide)⟩

/-- A cons under traversal with its cursor at index 0: `tail_is_next` set,
child slot 0 (head) holding the grandparent `7`, child slot 1 (tail)
holding the original tail `9`. -/
def mnIn : Obj :=
  { marked := true, cls := .consC, tailIsNext := true, fld1 := 7, fld2 := 9 }

/-- C4 counterexample: for the cons `mnIn` at address `5` under traversal
with cursor 0 (slot 0 = grandparent `7`, slot 1 = tail `9`) and the
returned first child `3` in `obj`, `cons_mark_next` does NOT leave child
slot 0 holding the grandparent with child slot 1 holding the cons: the
code stores the incoming `obj` (`3`) into slot 0 and the grandparent
(`7`) into slot 1. -/
theorem cons_mark_next_claim_false :
    ¬ ((cons_mark_next mnIn 3 5).res = true ∧
       (cons_mark_next mnIn 3 5).obj = 9 ∧
       (cons_mark_next mnIn 3 5).parent = 5 ∧
       (cons_mark_next mnIn 3 5).upd.tailIsNext = false ∧
       (cons_mark_next mnIn 3 5).upd.fld1 = 7 ∧
       (cons_mark_next mnIn 3 5).upd.fld2 = 5) := by decide

/-- C4 (amended): for every cons object `O` under traversal with its
cursor at index 0 (`tail_is_next` set, its first-child slot holding the
grandparent), `cons_mark_next` returns true, sets `obj` to child 1 (the
tail), keeps `parent` at `O`, advances the cursor to 1
(`tail_is_next := false`), restores child slot 0 from the incoming `obj`
(the already-visited first child) and moves the grandparent from child
slot 0 into child slot 1. -/
theorem cons_mark_next_cursor_head (P : Obj) (o p : Addr)
    (htn : P.tailIsNext = true) :
    cons_mark_next P o p =
      { res := true
        upd := { P with fld1 := o, fld2 := P.fld1, tailIsNext := false }
        obj := P.fld2
        parent := p } := by
  simp [cons_mark_next, htn]

theorem cons_mark_next_cursor_head_witness :
    mnIn.tailIsNext = true ∧
    cons_mark_next mnIn 3 5 =
      { res := true
        upd := { mnIn with fld1 := 3, fld2 := mnIn.fld1, tailIsNext := false }
        obj := mnIn.fld2
        parent := 5 } :=
  ⟨by decide, cons_mark_next_cursor_head mnIn 3 5 (by decide)⟩

/-- C6: `register_object(obj, class)` follows exactly these steps: if
`object_count` equals 10,000 it first invokes `gc()` (before linking
`obj`, so the collection observes the heap without `obj`); if
`object_count` still equals 10,000 afterwards it reports a fatal error and
terminates the process (`none`); otherwise it links `obj` at the head of
the heap list with `marked` false and the given class, and increments
`object_count` by one. -/
theorem register_object_follows_steps (s : GState) (a : Addr) (o : Obj) :
    (s.count ≠ 10000 →
      register_object s a o = some { s with
        heap := (a, { o with marked := false }) :: s.heap
        count := s.count + 1 }) ∧
    (s.count = 10000 → gc s = none → register_object s a o = none) ∧
    (s.count = 10000 → ∀ s1, gc s = some s1 →
      (s1.count = 10000 → register_object s a o = none) ∧
      (s1.count ≠ 10000 → register_object s a o = some { s1 with
        heap := (a, { o with marked := false }) :: s1.heap
        count := s1.count + 1 })) := by
  refine ⟨?_, ?_, ?_⟩
  · intro hcap
    simp [register_object, hcap]
  · intro hcap hgc
    simp [register_object, hcap, hgc]
  · intro hcap s1 hgc
    constructor
    · intro hcap1
      simp [register_object, hcap, hgc, hcap1]
    · intro hcap1
      simp [register_object, hcap, hgc, hcap1]

theorem register_object_follows_steps_witness :
    init_globals.count ≠ 10000 ∧
    register_object init_globals 5 atomObj = some { init_globals with
      heap := (5, { atomObj with marked := false }) :: init_globals.heap
      count := init_globals.count + 1 } :=
  ⟨by decide, (register_object_follows_steps init_globals 5 atomObj).1
    (by decide)⟩

/-- C7: `gc()` is idempotent: for every heap state satisfying the heap
invariant, running `gc()` twice in a row yields the same heap list (even
the same address list), the same `object_count`, and the same root stack
and cells as running it once; the second collection disposes no object
(the heap length is unchanged). -/
theorem gc_idempotent {s : GState} (hInv : Inv s) {s1 : GState}
    (h1 : gc s = some s1) :
    ∃ s2, gc s1 = some s2 ∧ s2.heap.keys = s1.heap.keys ∧
      s2.heap.length = s1.heap.length ∧ s2.count = s1.count ∧
      s2.roots = s1.roots ∧ s2.cells = s1.cells := by
  obtain ⟨s1', hgc, hrts, hcls, hInv1, hsubl, hiff, hflds⟩ := gc_spec hInv
  have he : s1' = s1 := (some_some h1 hgc).symm
  subst he
  obtain ⟨s2, hgc2, hrts2, hcls2, hInv2, hsubl2, hiff2, hflds2⟩ :=
    gc_spec hInv1
  have hrv : rootVals s1' = rootVals s := by
    rw [rootVals, rootVals, hrts, hcls]
  have hall : ∀ a, (s1'.heap.lookup a).isSome = true →
      (s2.heap.lookup a).isSome = true := by
    intro a ha
    obtain ⟨hsome, v, hv, hr⟩ := (hiff a).mp ha
    have hr1 : Reaches s1'.heap v a := by
      refine reaches_transfer ?_ hr
      intro b hb
      have hvsome : (s.heap.lookup v).isSome = true := by
        obtain ⟨c, hc, hcv⟩ := List.mem_map.mp hv
        rw [← hcv]
        exact hInv.2.2.2 c hc
      have hbsome := reaches_isSome hInv.1 hvsome hb
      obtain ⟨O₀, hO₀⟩ : ∃ O₀, s.heap.lookup b = some O₀ := by
        cases hx : s.heap.lookup b with
        | none => rw [hx] at hbsome; simp at hbsome
        | some B => exact ⟨B, rfl⟩
      obtain ⟨O, hO, hOm, hcls', hf1, hf2⟩ := hflds b O₀ hO₀ ⟨v, hv, hb⟩
      exact ⟨O₀, O, hO₀, hO, childrenOf_congr hcls' hf1 hf2⟩
    rw [hiff2 a]
    exact ⟨ha, v, by rw [hrv]; exact hv, hr1⟩
  have hk12 : ∀ a, a ∈ s1'.heap.keys → a ∈ s2.heap.keys := by
    intro a ha
    rw [← lookup_isSome_iff] at ha ⊢
    exact hall a ha
  have hsubper : s1'.heap.keys.Subperm s2.heap.keys :=
    hInv1.1.1.subperm hk12
  have hlen : s2.heap.keys.length = s1'.heap.keys.length :=
    le_antisymm hsubl2.length_le hsubper.length_le
  have hkeys : s2.heap.keys = s1'.heap.keys := hsubl2.eq_of_length hlen
  have hlen' : s2.heap.length = s1'.heap.length := by
    rw [← keys_length, ← keys_length, hkeys]
  have hcnt : s2.count = s1'.count := by
    rw [hInv2.2.2.1, hInv1.2.2.1, hlen']
  exact ⟨s2, hgc2, hkeys, hlen', hcnt, hrts2, hcls2⟩

/-- The state left by collecting `gstate1`. -/
def gstate1Gc : GState :=
  { heap := [(nilAddr, nilObj)]
    count := 1
    cells := [(nilRootCell, nilAddr), (opCell, nilAddr), (contCell, nilAddr)]
    roots := [contCell, opCell, nilRootCell] }

theorem gc_idempotent_witness :
    Inv gstate1 ∧ gc gstate1 = some gstate1Gc ∧
    ∃ s2, gc gstate1Gc = some s2 ∧ s2.heap.keys = gstate1Gc.heap.keys ∧
      s2.heap.length = gstate1Gc.heap.length ∧
      s2.count = gstate1Gc.count ∧
      s2.roots = gstate1Gc.roots ∧ s2.cells = gstate1Gc.cells :=
  ⟨by decide, by decide, @gc_idempotent gstate1 (by decide) gstate1Gc (by decide)⟩

/-- C8: after every public entry point returns (modelled as any sequence
of contract-respecting entry point calls starting from `init_globals`),
`object_count` equals the number of objects in the heap list. -/
theorem object_count_eq_heap_length (ops : List Op) (s' : GState)
    (h : runOps init_globals ops = some s') :
    s'.count = s'.heap.length :=
  (inv_runOps inv_init_globals h).2.2.1

/-- The state after creating one atom from `init_globals`. -/
def gsAfterAtom : GState :=
  { heap := [(2, atomObj), (nilAddr, nilObj)]
    count := 2
    cells := [(nilRootCell, nilAddr), (opCell, nilAddr), (contCell, nilAddr)]
    roots := [contCell, opCell, nilRootCell] }

theorem object_count_eq_heap_length_witness :
    runOps init_globals [Op.opCreateAtom 2] = some gsAfterAtom ∧
    gsAfterAtom.count = gsAfterAtom.heap.length :=
  ⟨by decide, object_count_eq_heap_length [Op.opCreateAtom 2] gsAfterAtom
    (by decide)⟩

/-- C9: outside of an executing `gc()` call — in particular after every
public entry point returns (any sequence of contract-respecting entry
point calls from `init_globals`) — every object in the heap list has
`marked` equal to false. -/
theorem heap_all_unmarked_after_ops (ops : List Op) (s' : GState)
    (h : runOps init_globals ops = some s') :
    ∀ q ∈ s'.heap, q.2.marked = false :=
  (inv_runOps inv_init_globals h).2.1

theorem heap_all_unmarked_after_ops_witness :
    runOps init_globals [Op.opGc] = some init_globals ∧
    ∀ q ∈ init_globals.heap, q.2.marked = false :=
  ⟨by decide, heap_all_unmarked_after_ops [Op.opGc] init_globals (by decide)⟩

/-- C10: when the continuation stack is empty (the `cont_stack` cell holds
an object whose class is not the cons class, in particular the nil
sentinel), `pop_cont()` returns the null pointer and leaves the heap list,
`object_count`, cells and root stack entirely unchanged — it never
terminates the process — whereas `pop()` on an operand stack in the same
situation reports an error and terminates the process (`none`). -/
theorem pop_cont_empty_vs_pop (s t : GState) (O P : Obj)
    (hs : s.heap.lookup (cellGet s.cells contCell) = some O)
    (hO : O.cls ≠ ObjClass.consC)
    (ht : t.heap.lookup (cellGet t.cells opCell) = some P)
    (hP : P.cls ≠ ObjClass.consC) :
    pop_cont s = some (0, s) ∧ pop t = none := by
  constructor
  · simp [pop_cont, hs, hO]
  · simp [pop, ht, hP]

theorem pop_cont_empty_vs_pop_witness :
    init_globals.heap.lookup (cellGet init_globals.cells contCell) =
      some nilObj ∧
    nilObj.cls ≠ ObjClass.consC ∧
    init_globals.heap.lookup (cellGet init_globals.cells opCell) =
      some nilObj ∧
    (pop_cont init_globals = some (0, init_globals) ∧
      pop init_globals = none) :=
  ⟨by decide, by decide, by decide,
    pop_cont_empty_vs_pop init_globals init_globals nilObj nilObj
      (by decide) (by decide) (by decide) (by decide)⟩

end GCL
